import Mathlib

/-!
# urls.c: extraction of URLs from a byte stream

A shallow embedding of `src/urls.c` and the properties proved about it.

Conventions of the embedding.

* A C `int` or `char` value is an `Int`.  A byte of the input stream is an
  `Int` in `0..255`; `fgetc` hands it out unchanged, and returns `EOF = -1`
  once the stream is exhausted.  The stream handed to `fgetc` is the list of
  bytes not yet read.
* A `char*` that is read as a string is the list of the chars found from the
  pointer on; reading at or beyond the end of the list gives the terminating
  NUL (`List.getD _ _ 0`).
* The global `char buffer[BUFSIZE]` is a function from the index to the char
  stored there, so that its initial contents can be anything.
* A loop that reads the stream until some byte is met is a recursion on the
  unread bytes; the `for` loop over the buffer is a recursion on the number
  of iterations left; the `while (1)` loops around them take a fuel that the
  entry point sets to one more than the number of unread bytes (each turn of
  such a loop reads at least one byte).
-/

namespace Urls

/-! ## Constants and types -/

/-- Value returned by `fgetc` at the end of the stream. -/
def EOF : Int := -1

/-- Size of the global working buffer (`#define BUFSIZE 512`). -/
def BUFSIZE : Nat := 512

/-- Scheme record: `typedef struct Scheme { char* str; int len; } Scheme;`.
`str` is the string the pointer designates. -/
structure Scheme where
  str : List Int
  len : Nat
deriving DecidableEq, Repr

/-- Contents of `char buffer[BUFSIZE]` (and of any char array read by index). -/
abbrev Buffer := Nat → Int

/-- Assignment `buffer[p] = v`. -/
def write (buffer : Buffer) (p : Nat) (v : Int) : Buffer :=
  fun i => if i = p then v else buffer i

/-- View of a string given as a list as a char array: NUL from its end on. -/
def chars (s : List Int) : Buffer := fun i => s.getD i 0

/-- String held in a char array from index `i` on, the way `fputs` and
`strlen` read it: up to the first NUL, looking at `n` cells at most. -/
def c_string (s : Buffer) (i : Nat) : Nat → List Int
  | 0 => []
  | n + 1 => if s i = 0 then [] else s i :: c_string s (i + 1) n

/-- Result of `strlen` on a char array given as a list. -/
def strlen : List Int → Nat
  | [] => 0
  | c :: rest => if c = 0 then 0 else strlen rest + 1

/-- Whether `strncmp(s1 + i, s2 + i, n)` is 0: at most `n` chars are compared,
and the comparison stops after a NUL. -/
def strncmp_eq (s1 s2 : Buffer) (i : Nat) : Nat → Bool
  | 0 => true
  | n + 1 =>
    if s1 i ≠ s2 i then false
    else if s1 i = 0 then true
    else strncmp_eq s1 s2 (i + 1) n

/-- Library `isalpha` of `<ctype.h>` in the "C" locale. -/
def isalpha (c : Int) : Bool := (65 ≤ c && c ≤ 90) || (97 ≤ c && c ≤ 122)

/-- Library `isalnum` of `<ctype.h>` in the "C" locale. -/
def isalnum (c : Int) : Bool := isalpha c || (48 ≤ c && c ≤ 57)

/-- Library `fgetc`: the next byte and the bytes left, or `EOF`. -/
def fgetc : List Int → Int × List Int
  | [] => (EOF, [])
  | c :: rest => (c, rest)

/-! ## Character classes (`is_url_char`, `is_scheme_char`) -/

/-- Source `is_url_char`, lines 327-336. -/
def is_url_char (c : Int) : Bool :=
  decide (c > 0x20)
    && (c != 34)
    && (c != 60)
    && (c != 62)
    && (c != 92)
    && (c != 94)
    && (c != 96)
    && (decide (c < 0x7b) || (c == 126))

/-- Source `is_scheme_char`, lines 366-368. -/
def is_scheme_char (c : Int) : Bool :=
  isalnum c || (c == 43) || (c == 45) || (c == 46)

/-! ## Scheme table (`default_schemes`, `is_valid_scheme`, `parse_schemes`) -/

/-- Source `#define NUM_DEFAULT_SCHEMES 6`. -/
def NUM_DEFAULT_SCHEMES : Nat := 6

/-- Source `default_schemes`, lines 57-63: an array of `NUM_DEFAULT_SCHEMES`
records with five initialisers; the record without one is zero-initialised
(`str = NULL`, `len = 0`; with `len = 0` no char of `str` is ever read). -/
def default_schemes : List Scheme :=
  [ ⟨[102, 116, 112], 3⟩,                     -- "ftp"
    ⟨[104, 116, 116, 112], 4⟩,                -- "http"
    ⟨[104, 116, 116, 112, 115], 5⟩,           -- "https"
    ⟨[109, 97, 105, 108, 116, 111], 6⟩,       -- "mailto"
    ⟨[116, 101, 108], 3⟩,                     -- "tel"
    ⟨[], 0⟩ ]

/-- Loop of `is_valid_scheme`, lines 351-358: `idx` is the loop variable and
the list holds the chars from `scheme + idx` on. -/
def is_valid_scheme_loop : Nat → List Int → Bool
  | _, [] => true
  | idx, c :: rest =>
    if c = 0 then true
    else
      let is_too_long := decide (idx > BUFSIZE - 2)
      if is_too_long || !(is_scheme_char c) then false
      else is_valid_scheme_loop (idx + 1) rest

/-- Source `is_valid_scheme`, lines 346-361. -/
def is_valid_scheme (scheme : List Int) : Bool :=
  if !(isalpha (scheme.getD 0 0)) then false
  else is_valid_scheme_loop 1 (scheme.drop 1)

/-- First loop of `parse_schemes`, lines 200-206: every ',' before the
terminating NUL is overwritten with NUL and counted.  Returns the count and
the string as modified in place. -/
def count_schemes : List Int → Nat → Nat × List Int
  | [], count => (count, [])
  | c :: rest, count =>
    if c = 0 then (count, c :: rest)
    else if c = 44 then
      let r := count_schemes rest (count + 1)
      (r.1, 0 :: r.2)
    else
      let r := count_schemes rest count
      (r.1, c :: r.2)

/-- Second loop of `parse_schemes`, lines 214-224: `n` records are still to
be filled and `c` is the char pointer.  `none` stands for the call of `fail`,
which exits the program. -/
def parse_loop : Nat → List Int → Option (List Scheme)
  | 0, _ => some []
  | n + 1, c =>
    if !(is_valid_scheme c) then none
    else
      let scheme_len := strlen c
      match parse_loop n (c.drop (scheme_len + 1)) with
      | none => none
      | some rest => some (⟨c.take scheme_len, scheme_len⟩ :: rest)

/-- Source `parse_schemes`, lines 198-227, with `realloc` succeeding: the
resulting table `schemes[0..schemes_count-1]`, or `none` when `fail` is
called. -/
def parse_schemes (schemes_str : List Int) : Option (List Scheme) :=
  let r := count_schemes schemes_str 1
  parse_loop r.1 r.2

/-- Table selected by `main`, lines 84-90: the parsed `-s` list when the option
is given (`none` when parsing fails), otherwise the first `NUM_DEFAULT_SCHEMES`
records of `default_schemes`. -/
def main_schemes (option_s : Option (List Int)) : Option (List Scheme) :=
  match option_s with
  | some schemes_str => parse_schemes schemes_str
  | none =>
    let schemes := default_schemes
    let schemes_count := NUM_DEFAULT_SCHEMES
    some (schemes.take schemes_count)

/-! ## Validator (`is_valid_url`) -/

/-- Source `is_valid_url`, lines 311-322, over the table
`schemes[0..schemes_count-1]`. -/
def is_valid_url (schemes : List Scheme) (url : Buffer) : Bool :=
  match schemes with
  | [] => false
  | s :: rest =>
    let is_valid := strncmp_eq (chars s.str) url 0 s.len
      && (url s.len == 58)
      && is_url_char (url (s.len + 1))
    if is_valid then true else is_valid_url rest url

/-! ## Tokenizer (`read_next_candidate`) -/

/-- First inner loop of `read_next_candidate`, lines 278-286: `none` when `EOF`
is met (the function then returns NULL), otherwise the URL char found and the
bytes left. -/
def skip_loop : List Int → Option (Int × List Int)
  | [] => none
  | c :: rest => if is_url_char c then some (c, rest) else skip_loop rest

/-- Ways the `for` loop of `read_next_candidate` ends. -/
inductive Fill where
  | returned (in_file : List Int) (buffer : Buffer)
  | full (in_file : List Int) (buffer : Buffer)

/-- The `for` loop of `read_next_candidate`, lines 290-299, with `n` iterations
left before `p` reaches `buffer + BUFSIZE`. -/
def fill_loop : Nat → Nat → List Int → Buffer → Fill
  | 0, _, in_file, buffer => Fill.full in_file buffer
  | n + 1, p, in_file, buffer =>
    let next_char := (fgetc in_file).1
    let in_file := (fgetc in_file).2
    if !(is_url_char next_char) then Fill.returned in_file (write buffer p 0)
    else fill_loop n (p + 1) in_file (write buffer p next_char)

/-- Last loop of `read_next_candidate`, line 302,
`while (is_url_char(fgetc(in_file)));`: the bytes left once it ends. -/
def discard_loop : List Int → List Int
  | [] => []
  | c :: rest => if is_url_char c then discard_loop rest else rest

/-- Outer loop of `read_next_candidate`.  The result is whether `buffer`
(rather than NULL) is returned, the bytes left and the buffer contents. -/
def read_next_candidate_loop : Nat → List Int → Buffer → Bool × List Int × Buffer
  | 0, in_file, buffer => (false, in_file, buffer)
  | fuel + 1, in_file, buffer =>
    match skip_loop in_file with
    | none => (false, [], buffer)
    | some (next_char, in_file) =>
      match fill_loop (BUFSIZE - 1) 1 in_file (write buffer 0 next_char) with
      | Fill.returned in_file buffer => (true, in_file, buffer)
      | Fill.full in_file buffer =>
        read_next_candidate_loop fuel (discard_loop in_file) buffer

/-- Source `read_next_candidate`, lines 274-304. -/
def read_next_candidate (in_file : List Int) (buffer : Buffer) :
    Bool × List Int × Buffer :=
  read_next_candidate_loop (in_file.length + 1) in_file buffer

/-! ## Pipeline (`find_next_url`, `run`) -/

/-- Loop of `find_next_url`. -/
def find_next_url_loop (schemes : List Scheme) :
    Nat → List Int → Buffer → Bool × List Int × Buffer
  | 0, in_file, buffer => (false, in_file, buffer)
  | fuel + 1, in_file, buffer =>
    let r := read_next_candidate in_file buffer
    if !r.1 || is_valid_url schemes r.2.2 then r
    else find_next_url_loop schemes fuel r.2.1 r.2.2

/-- Source `find_next_url`, lines 257-265. -/
def find_next_url (schemes : List Scheme) (in_file : List Int) (buffer : Buffer) :
    Bool × List Int × Buffer :=
  find_next_url_loop schemes (in_file.length + 1) in_file buffer

/-- Loop of `run`: the strings passed to `fputs`, each followed on standard
output by a newline. -/
def run_loop (schemes : List Scheme) : Nat → List Int → Buffer → List (List Int)
  | 0, _, _ => []
  | fuel + 1, in_file, buffer =>
    let r := find_next_url schemes in_file buffer
    if r.1 then c_string r.2.2 0 BUFSIZE :: run_loop schemes fuel r.2.1 r.2.2
    else []

/-- Source `run`, lines 238-249: the lines written to standard output. -/
def run (schemes : List Scheme) (in_file : List Int) (buffer : Buffer) :
    List (List Int) :=
  run_loop schemes (in_file.length + 1) in_file buffer

/-- Zero-initialised global buffer, as at program start. -/
def buffer0 : Buffer := fun _ => 0

/-! ## Specification-side definitions -/

/-- Maximal runs of URL-class bytes of a byte string, in stream order: the
string is cut at every byte that is not URL-class and the non-empty pieces
are kept. -/
def maximalRuns (S : List Int) : List (List Int) :=
  (S.splitOnP (fun b => !(is_url_char b))).filter (fun r => !r.isEmpty)

/-- Validator as the specification words it (section 4.4), for one scheme
string `s`: the candidate starts with `s`, the next byte is ':' and the
byte after that exists and is URL-class. -/
def matchesScheme (s : List Int) (candidate : List Int) : Bool :=
  (candidate.take s.length == s)
    && (candidate[s.length]? == some 58)
    && (match candidate[s.length + 1]? with
        | some b => is_url_char b
        | none => false)

/-- Whether some scheme of the table matches the candidate. -/
def matchesTable (T : List Scheme) (candidate : List Int) : Bool :=
  T.any (fun s => matchesScheme s.str candidate)

/-- Buffer after the chars of `l` have been written at `p`, `p + 1`, ... -/
def store (buffer : Buffer) (p : Nat) (l : List Int) : Buffer :=
  fun i => if p ≤ i ∧ i < p + l.length then l.getD (i - p) 0 else buffer i

/-- A byte string starts with no URL-class byte (it is empty or its first byte
is not URL-class). -/
def Boundary (rest : List Int) : Prop :=
  ∀ b, rest.head? = some b → is_url_char b = false

/-- The char array holds the string `c` from index 0 on, followed by its
terminating NUL. -/
def HoldsString (buffer : Buffer) (c : List Int) : Prop :=
  (∀ i, i < c.length → buffer i = c.getD i 0) ∧ buffer c.length = 0

/-- Well-formed table: every scheme string is NUL-free and its recorded `len`
is its length. -/
def WellFormed (T : List Scheme) : Prop :=
  ∀ s ∈ T, (0 : Int) ∉ s.str ∧ s.len = s.str.length

/-- Well-formed scheme text as Invariant I1 words it: a letter followed by
letters, digits, '+', '-' or '.'. -/
def ValidSchemeText (p : List Int) : Prop :=
  ∃ c rest, p = c :: rest
    ∧ ((65 ≤ c ∧ c ≤ 90) ∨ (97 ≤ c ∧ c ≤ 122))
    ∧ ∀ d ∈ rest, (65 ≤ d ∧ d ≤ 90) ∨ (97 ≤ d ∧ d ≤ 122) ∨ (48 ≤ d ∧ d ≤ 57)
        ∨ d = 43 ∨ d = 45 ∨ d = 46

/-- Table used when no `-s` option is given (`main`, lines 87-90). -/
def default_table : List Scheme := default_schemes.take NUM_DEFAULT_SCHEMES

/-- Bytes of `see http://x.io and bad://y`. -/
def scenarioA : List Int :=
  [115, 101, 101, 32, 104, 116, 116, 112, 58, 47, 47, 120, 46, 105, 111, 32,
    97, 110, 100, 32, 98, 97, 100, 58, 47, 47, 121]

/-- Bytes of `http://x.io`. -/
def httpXio : List Int := [104, 116, 116, 112, 58, 47, 47, 120, 46, 105, 111]

/-- Bytes of `http://ok`. -/
def httpOk : List Int := [104, 116, 116, 112, 58, 47, 47, 111, 107]

/-- Bytes of `http,https,ftp`. -/
def httpHttpsFtp : List Int :=
  [104, 116, 116, 112, 44, 104, 116, 116, 112, 115, 44, 102, 116, 112]

/-- Byte string of `n` copies of 'a' followed by `http://ok`. -/
def scenarioC (n : Nat) : List Int :=
  List.replicate n 97 ++ httpOk

/-- Bytes of `contact: mailto:a@b.com!`. -/
def scenarioB : List Int :=
  [99, 111, 110, 116, 97, 99, 116, 58, 32,
    109, 97, 105, 108, 116, 111, 58, 97, 64, 98, 46, 99, 111, 109, 33]

/-- Bytes of `mailto:a@b.com!`. -/
def mailtoAB : List Int :=
  [109, 97, 105, 108, 116, 111, 58, 97, 64, 98, 46, 99, 111, 109, 33]

/-! ## Instrumented copies: buffer indices written and read; failing reads -/

/-- The `for` loop of `read_next_candidate`, as `fill_loop`, together with the
buffer indices it assigns (`*p = ...`), in order. -/
def fill_loop_trace : Nat → Nat → List Int → Buffer → Fill × List Nat
  | 0, _, in_file, buffer => (Fill.full in_file buffer, [])
  | n + 1, p, in_file, buffer =>
    let next_char := (fgetc in_file).1
    let in_file := (fgetc in_file).2
    if !(is_url_char next_char) then (Fill.returned in_file (write buffer p 0), [p])
    else
      let r := fill_loop_trace n (p + 1) in_file (write buffer p next_char)
      (r.1, p :: r.2)

/-- Outer loop of `read_next_candidate`, as `read_next_candidate_loop`,
together with one list per turn of the loop (per run of URL chars met): the
buffer indices assigned during that turn, `*buffer = next_char` first. -/
def read_next_candidate_trace_loop :
    Nat → List Int → Buffer → (Bool × List Int × Buffer) × List (List Nat)
  | 0, in_file, buffer => ((false, in_file, buffer), [])
  | fuel + 1, in_file, buffer =>
    match skip_loop in_file with
    | none => ((false, [], buffer), [])
    | some (next_char, in_file) =>
      let r := fill_loop_trace (BUFSIZE - 1) 1 in_file (write buffer 0 next_char)
      match r.1 with
      | Fill.returned in_file buffer => ((true, in_file, buffer), [0 :: r.2])
      | Fill.full in_file buffer =>
        let t := read_next_candidate_trace_loop fuel (discard_loop in_file) buffer
        (t.1, (0 :: r.2) :: t.2)

/-- Source `read_next_candidate` with the indices it writes, turn by turn. -/
def read_next_candidate_trace (in_file : List Int) (buffer : Buffer) :
    (Bool × List Int × Buffer) × List (List Nat) :=
  read_next_candidate_trace_loop (in_file.length + 1) in_file buffer

/-- Indices of `s2` that `strncmp(s1 + i, s2 + i, n)` reads: the chars compared,
up to and including the first difference or NUL (see `strncmp_eq`). -/
def strncmp_reads (s1 s2 : Buffer) (i : Nat) : Nat → List Nat
  | 0 => []
  | n + 1 =>
    if s1 i ≠ s2 i then [i]
    else if s1 i = 0 then [i]
    else i :: strncmp_reads s1 s2 (i + 1) n

/-- Source `is_valid_url`, as above, together with the indices of `url` it
reads, in order.  The right operand of `&&` is evaluated only when the left
one is true: `url[s->len]` is read when `strncmp` gave 0, and
`url[s->len + 1]` when moreover `url[s->len]` is ':'. -/
def is_valid_url_trace (schemes : List Scheme) (url : Buffer) : Bool × List Nat :=
  match schemes with
  | [] => (false, [])
  | s :: rest =>
    let same := strncmp_eq (chars s.str) url 0 s.len
    let colon := same && (url s.len == 58)
    let is_valid := colon && is_url_char (url (s.len + 1))
    let reads := strncmp_reads (chars s.str) url 0 s.len
      ++ (if same then [s.len] else [])
      ++ (if colon then [s.len + 1] else [])
    if is_valid then (true, reads)
    else ((is_valid_url_trace rest url).1, reads ++ (is_valid_url_trace rest url).2)

/-- Indices of `url` that `is_valid_url` reads, in order. -/
def is_valid_url_reads (schemes : List Scheme) (url : Buffer) : List Nat :=
  (is_valid_url_trace schemes url).2

/-- Library `fgetc` on a stream that delivers the bytes `in_file` in order and
whose next read then meets the end of the file, or fails when `read_fails`:
the value returned by the call, and whether the call sets the error indicator
of the stream.  `EOF` is returned in both cases (C standard, 7.21.7.1). -/
def fgetc_end (in_file : List Int) (read_fails : Bool) : Int × Bool :=
  match in_file with
  | [] => (EOF, read_fails)
  | c :: _ => (c, false)

end Urls

namespace Urls

/-! ## Character classes -/

theorem is_url_char_iff (c : Int) :
    is_url_char c = true ↔
      ((33 ≤ c ∧ c ≤ 122 ∧ c ≠ 34 ∧ c ≠ 60 ∧ c ≠ 62 ∧ c ≠ 92 ∧ c ≠ 94 ∧ c ≠ 96)
        ∨ c = 126) := by
  simp only [is_url_char, Bool.and_eq_true, Bool.or_eq_true, decide_eq_true_eq,
    bne_iff_ne, beq_iff_eq, ne_eq]
  omega

theorem is_url_char_zero : is_url_char 0 = false := by decide

theorem is_url_char_EOF : is_url_char EOF = false := by decide

theorem is_url_char_ne_zero {c : Int} (h : is_url_char c = true) : c ≠ 0 := by
  intro h0
  rw [h0] at h
  exact absurd h (by decide)

theorem isalpha_iff (c : Int) :
    isalpha c = true ↔ ((65 ≤ c ∧ c ≤ 90) ∨ (97 ≤ c ∧ c ≤ 122)) := by
  simp only [isalpha, Bool.and_eq_true, Bool.or_eq_true, decide_eq_true_eq]

theorem is_scheme_char_iff (d : Int) :
    is_scheme_char d = true ↔
      ((65 ≤ d ∧ d ≤ 90) ∨ (97 ≤ d ∧ d ≤ 122) ∨ (48 ≤ d ∧ d ≤ 57)
        ∨ d = 43 ∨ d = 45 ∨ d = 46) := by
  simp only [is_scheme_char, isalnum, isalpha, Bool.and_eq_true, Bool.or_eq_true,
    decide_eq_true_eq, beq_iff_eq]
  omega

/-! ## Scheme syntax check -/

theorem is_valid_scheme_loop_append (p rest : List Int) (hp : (0 : Int) ∉ p)
    (hr : rest.headD 0 = 0) (idx : Nat) :
    is_valid_scheme_loop idx (p ++ rest) = true ↔
      (∀ d ∈ p, is_scheme_char d = true) ∧ (p = [] ∨ idx + p.length ≤ BUFSIZE - 1) := by
  induction p generalizing idx with
  | nil =>
    cases rest with
    | nil => simp [is_valid_scheme_loop]
    | cons c r =>
      have hc : c = 0 := by simpa using hr
      simp [is_valid_scheme_loop, hc]
  | cons c q ih =>
    have hc : c ≠ 0 := fun h => hp (by simp [h])
    have hq : (0 : Int) ∉ q := fun h => hp (List.mem_cons_of_mem _ h)
    simp only [List.cons_append, is_valid_scheme_loop, hc, if_false]
    by_cases hs : is_scheme_char c = true
    · by_cases hi : idx > BUFSIZE - 2
      · simp only [hi, decide_True, Bool.true_or, if_true]
        simp only [BUFSIZE] at hi ⊢
        simp only [List.length_cons, reduceCtorEq, false_or, false_iff, not_and,
          Bool.false_eq_true]
        intro _
        omega
      · simp only [hi, decide_False, hs, Bool.not_true, Bool.or_self, if_false,
          Bool.false_eq_true, List.append_eq]
        rw [ih hq]
        simp only [BUFSIZE] at hi ⊢
        simp only [List.mem_cons, forall_eq_or_imp, hs, true_and, List.length_cons,
          reduceCtorEq, false_or]
        constructor
        · rintro ⟨h1, h2⟩
          refine ⟨h1, ?_⟩
          rcases h2 with h2 | h2
          · subst h2
            simp only [List.length_nil]
            omega
          · omega
        · rintro ⟨h1, h2⟩
          exact ⟨h1, Or.inr (by omega)⟩
    · have hs2 : is_scheme_char c = false := by simpa using hs
      simp [hs2]

theorem is_valid_scheme_append (p rest : List Int) (hp : (0 : Int) ∉ p)
    (hr : rest.headD 0 = 0) :
    is_valid_scheme (p ++ rest) = true ↔ ValidSchemeText p ∧ p.length ≤ BUFSIZE - 1 := by
  cases p with
  | nil =>
    have h0 : (([] : List Int) ++ rest).getD 0 0 = 0 := by
      cases rest with
      | nil => rfl
      | cons c r => simpa using hr
    simp only [is_valid_scheme, h0]
    simp [ValidSchemeText, isalpha]
  | cons c q =>
    have hq : (0 : Int) ∉ q := fun h => hp (List.mem_cons_of_mem _ h)
    simp only [is_valid_scheme, List.cons_append, List.getD_cons_zero, List.drop_succ_cons,
      List.drop_zero]
    by_cases ha : isalpha c = true
    · simp only [ha, Bool.not_true, Bool.false_eq_true, if_false]
      rw [is_valid_scheme_loop_append q rest hq hr 1]
      have ha2 := (isalpha_iff c).1 ha
      simp only [ValidSchemeText, List.cons.injEq, List.length_cons, BUFSIZE]
      constructor
      · rintro ⟨h1, h2⟩
        refine ⟨⟨c, q, ⟨rfl, rfl⟩, ha2, fun d hd => (is_scheme_char_iff d).1 (h1 d hd)⟩, ?_⟩
        rcases h2 with h2 | h2
        · subst h2
          simp
        · omega
      · rintro ⟨⟨c2, r2, ⟨h1, h2⟩, _, h4⟩, h5⟩
        subst h1 h2
        exact ⟨fun d hd => (is_scheme_char_iff d).2 (h4 d hd), Or.inr (by omega)⟩
    · have ha2 : isalpha c = false := by simpa using ha
      simp only [ha2, Bool.not_false, if_true, Bool.false_eq_true, false_iff, not_and]
      rintro ⟨c2, r2, h1, h3, _⟩ _
      simp only [List.cons.injEq] at h1
      obtain ⟨h1, _⟩ := h1
      subst h1
      exact ha ((isalpha_iff c).2 h3)

theorem strlen_append (p rest : List Int) (hp : (0 : Int) ∉ p) (hr : rest.headD 0 = 0) :
    strlen (p ++ rest) = p.length := by
  induction p with
  | nil =>
    cases rest with
    | nil => rfl
    | cons c r =>
      have hc : c = 0 := by simpa using hr
      simp [strlen, hc]
  | cons c q ih =>
    have hc : c ≠ 0 := fun h => hp (by simp [h])
    have hq : (0 : Int) ∉ q := fun h => hp (List.mem_cons_of_mem _ h)
    simp [strlen, hc, ih hq]

/-! ## Splitting at commas -/

theorem splitOn_cons_sep (xs : List Int) :
    (44 :: xs).splitOn 44 = [] :: xs.splitOn 44 := by
  simp [List.splitOn, List.splitOnP_cons]

theorem splitOn_cons_ne (x : Int) (xs : List Int) (h : x ≠ 44) :
    ∃ hd tl, xs.splitOn 44 = hd :: tl ∧ (x :: xs).splitOn 44 = (x :: hd) :: tl := by
  cases hsp : xs.splitOn 44 with
  | nil => exact absurd hsp (List.splitOnP_ne_nil _ _)
  | cons hd tl =>
    refine ⟨hd, tl, rfl, ?_⟩
    simp only [List.splitOn] at hsp ⊢
    rw [List.splitOnP_cons, hsp]
    simp [h]

theorem mem_of_mem_splitOn (s : List Int) :
    ∀ p ∈ s.splitOn 44, ∀ x ∈ p, x ∈ s := by
  induction s with
  | nil =>
    intro p hp x hx
    simp [List.splitOn, List.splitOnP_nil] at hp
    subst hp
    exact hx
  | cons c cs ih =>
    intro p hp x hx
    by_cases hc : c = 44
    · subst hc
      rw [splitOn_cons_sep] at hp
      rcases List.mem_cons.1 hp with h | h
      · subst h
        exact absurd hx (List.not_mem_nil _)
      · exact List.mem_cons_of_mem _ (ih p h x hx)
    · obtain ⟨hd, tl, h1, h2⟩ := splitOn_cons_ne c cs hc
      rw [h2] at hp
      rw [h1] at ih
      rcases List.mem_cons.1 hp with h | h
      · subst h
        rcases List.mem_cons.1 hx with h3 | h3
        · subst h3
          exact List.mem_cons_self _ _
        · exact List.mem_cons_of_mem _ (ih hd (List.mem_cons_self _ _) x h3)
      · exact List.mem_cons_of_mem _ (ih p (List.mem_cons_of_mem _ h) x hx)

theorem length_splitOn (s : List Int) : (s.splitOn 44).length = s.count 44 + 1 := by
  induction s with
  | nil => simp [List.splitOn, List.splitOnP_nil]
  | cons c cs ih =>
    by_cases hc : c = 44
    · subst hc
      rw [splitOn_cons_sep]
      simp [ih]
    · obtain ⟨hd, tl, h1, h2⟩ := splitOn_cons_ne c cs hc
      rw [h2]
      rw [h1] at ih
      have hc2 : (c == (44 : Int)) = false := by simpa using hc
      simpa [List.count_cons, hc2, Ne.symm hc] using ih

theorem intercalate_cons_cons (p q : List Int) (r : List (List Int)) :
    [(0 : Int)].intercalate (p :: q :: r) = p ++ 0 :: [(0 : Int)].intercalate (q :: r) := by
  simp [List.intercalate, List.intersperse]

theorem intercalate_single (p : List Int) : [(0 : Int)].intercalate [p] = p := by
  simp [List.intercalate, List.intersperse]

theorem intercalate_cons_head (x : Int) (hd : List Int) (tl : List (List Int)) :
    [(0 : Int)].intercalate ((x :: hd) :: tl) = x :: [(0 : Int)].intercalate (hd :: tl) := by
  cases tl with
  | nil => simp [intercalate_single]
  | cons q r => simp [intercalate_cons_cons]

/-! ## `parse_schemes` -/

theorem count_schemes_eq (s : List Int) (hs : (0 : Int) ∉ s) (k : Nat) :
    count_schemes s k
      = (k + (s.splitOn 44).length - 1, [(0 : Int)].intercalate (s.splitOn 44)) := by
  induction s generalizing k with
  | nil => simp [count_schemes, List.splitOn, List.splitOnP_nil, List.intercalate]
  | cons c cs ih =>
    have hc0 : c ≠ 0 := fun h => hs (by simp [h])
    have hcs : (0 : Int) ∉ cs := fun h => hs (List.mem_cons_of_mem _ h)
    by_cases hc : c = 44
    · subst hc
      obtain ⟨hd, tl, h1⟩ : ∃ hd tl, cs.splitOn 44 = hd :: tl := by
        cases h : cs.splitOn 44 with
        | nil => exact absurd h (List.splitOnP_ne_nil _ _)
        | cons hd tl => exact ⟨hd, tl, rfl⟩
      simp only [count_schemes, hc0, if_false, if_true, ih hcs, splitOn_cons_sep, h1,
        intercalate_cons_cons, List.nil_append, List.length_cons]
      congr 1
      omega
    · obtain ⟨hd, tl, h1, h2⟩ := splitOn_cons_ne c cs hc
      simp only [count_schemes, hc0, hc, if_false, ih hcs, h2, h1, intercalate_cons_head,
        List.length_cons]

theorem is_valid_scheme_append_eq (p rest : List Int) (hp : (0 : Int) ∉ p)
    (hr : rest.headD 0 = 0) : is_valid_scheme (p ++ rest) = is_valid_scheme p := by
  have h1 := is_valid_scheme_append p rest hp hr
  have h2 := is_valid_scheme_append p [] hp rfl
  rw [List.append_nil] at h2
  rw [Bool.eq_iff_iff, h1, h2]

theorem parse_loop_eq (ps : List (List Int)) (hne : ps ≠ [])
    (hps : ∀ p ∈ ps, (0 : Int) ∉ p) :
    parse_loop ps.length ([(0 : Int)].intercalate ps)
      = if ps.all is_valid_scheme = true
        then some (ps.map (fun p => (⟨p, p.length⟩ : Scheme))) else none := by
  induction ps with
  | nil => exact absurd rfl hne
  | cons p qs ih =>
    have hp : (0 : Int) ∉ p := hps p (List.mem_cons_self _ _)
    cases qs with
    | nil =>
      have hl := strlen_append p [] hp rfl
      rw [List.append_nil] at hl
      simp only [intercalate_single, List.length_singleton, parse_loop, hl, List.all_cons,
        List.all_nil, Bool.and_true, List.map_cons, List.map_nil, List.take_length]
      cases is_valid_scheme p <;> simp
    | cons q r =>
      have ih2 := ih (by simp) (fun x hx => hps x (List.mem_cons_of_mem _ hx))
      have hv := is_valid_scheme_append_eq p (0 :: [(0 : Int)].intercalate (q :: r)) hp rfl
      have hl := strlen_append p (0 :: [(0 : Int)].intercalate (q :: r)) hp rfl
      rw [intercalate_cons_cons]
      simp only [List.length_cons] at ih2 ⊢
      rw [parse_loop]
      simp only [hv, hl]
      have hd : List.drop (p.length + 1) (p ++ 0 :: [(0 : Int)].intercalate (q :: r))
          = [(0 : Int)].intercalate (q :: r) := by
        rw [List.drop_append_eq_append_drop]
        simp
      have ht : List.take p.length (p ++ 0 :: [(0 : Int)].intercalate (q :: r)) = p := by
        simp
      rw [hd, ht, ih2]
      have hall : (p :: q :: r).all is_valid_scheme
          = (is_valid_scheme p && (q :: r).all is_valid_scheme) := rfl
      rw [hall, List.map_cons]
      generalize (q :: r).all is_valid_scheme = b
      generalize is_valid_scheme p = a
      cases a <;> cases b <;> simp

theorem parse_schemes_eq (s : List Int) (hs : (0 : Int) ∉ s) :
    parse_schemes s
      = if (s.splitOn 44).all is_valid_scheme = true
        then some ((s.splitOn 44).map (fun p => (⟨p, p.length⟩ : Scheme))) else none := by
  have hne : s.splitOn 44 ≠ [] := List.splitOnP_ne_nil _ _
  have hps : ∀ p ∈ s.splitOn 44, (0 : Int) ∉ p :=
    fun p hp h0 => hs (mem_of_mem_splitOn s p hp 0 h0)
  have hlen : 1 + (s.splitOn 44).length - 1 = (s.splitOn 44).length := by omega
  simp only [parse_schemes, count_schemes_eq s hs 1, hlen]
  exact parse_loop_eq _ hne hps

/-! ## Validator -/

theorem is_valid_url_iff_exists (T : List Scheme) (url : Buffer) :
    is_valid_url T url = true ↔
      ∃ s ∈ T, strncmp_eq (chars s.str) url 0 s.len = true ∧ url s.len = 58
        ∧ is_url_char (url (s.len + 1)) = true := by
  induction T with
  | nil => simp [is_valid_url]
  | cons s rest ih =>
    simp only [is_valid_url, List.mem_cons, exists_eq_or_imp]
    by_cases h : (strncmp_eq (chars s.str) url 0 s.len && (url s.len == 58)
        && is_url_char (url (s.len + 1))) = true
    · simp only [h, if_true, true_iff]
      simp only [Bool.and_eq_true, beq_iff_eq] at h
      exact Or.inl ⟨h.1.1, h.1.2, h.2⟩
    · simp only [h, if_false, Bool.false_eq_true]
      rw [ih]
      simp only [Bool.and_eq_true, beq_iff_eq, and_assoc] at h
      simp only [h, false_or]

theorem strncmp_eq_iff (s : List Int) (hs : (0 : Int) ∉ s) (url : Buffer) :
    ∀ n i, i + n = s.length →
      (strncmp_eq (chars s) url i n = true ↔
        ∀ j, i ≤ j → j < s.length → url j = s.getD j 0) := by
  intro n
  induction n with
  | zero =>
    intro i hi
    simp only [strncmp_eq, true_iff]
    intro j h1 h2
    omega
  | succ n ih =>
    intro i hi
    have hlt : i < s.length := by omega
    have hne : chars s i ≠ 0 := by
      intro h0
      apply hs
      simp only [chars, List.getD_eq_getElem _ _ hlt] at h0
      rw [← h0]
      exact List.getElem_mem _
    simp only [strncmp_eq, hne, if_false]
    by_cases heq : chars s i = url i
    · simp only [heq, ne_eq, not_true_eq_false, if_false]
      rw [ih (i + 1) (by omega)]
      constructor
      · intro h j h1 h2
        rcases Nat.eq_or_lt_of_le h1 with h3 | h3
        · subst h3
          rw [← heq]
          rfl
        · exact h j h3 h2
      · intro h j h1 h2
        exact h j (by omega) h2
    · simp only [ne_eq, heq, not_false_eq_true, if_true, Bool.false_eq_true, false_iff]
      intro h
      exact heq (h i le_rfl hlt).symm

theorem take_eq_iff_of_holds (s cand : List Int) (hs : (0 : Int) ∉ s) (url : Buffer)
    (hc : HoldsString url cand) :
    (∀ j, j < s.length → url j = s.getD j 0) ↔ cand.take s.length = s := by
  constructor
  · intro h
    have hle : s.length ≤ cand.length := by
      by_contra hlt
      have hlt2 : cand.length < s.length := by omega
      have h1 := h cand.length hlt2
      rw [hc.2, List.getD_eq_getElem _ _ hlt2] at h1
      apply hs
      rw [h1]
      exact List.getElem_mem _
    apply List.ext_getElem
    · simp [hle]
    · intro j h1 h2
      have h3 := h j h2
      have h4 : j < cand.length := by omega
      rw [hc.1 j h4, List.getD_eq_getElem _ _ h4, List.getD_eq_getElem _ _ h2] at h3
      simpa using h3
  · intro h j hj
    have hle : s.length ≤ cand.length := by
      have := congrArg List.length h
      simp at this
      omega
    have h4 : j < cand.length := by omega
    rw [hc.1 j h4, List.getD_eq_getElem _ _ h4, List.getD_eq_getElem _ _ hj]
    have h5 : (cand.take s.length)[j]? = s[j]? := by rw [h]
    rw [List.getElem?_take_of_lt hj, List.getElem?_eq_getElem h4,
      List.getElem?_eq_getElem hj] at h5
    exact Option.some.inj h5

theorem holds_eq_colon (cand : List Int) (url : Buffer) (hc : HoldsString url cand) (n : Nat)
    (hn : n ≤ cand.length) (v : Int) (hv : v ≠ 0) :
    url n = v ↔ cand[n]? = some v := by
  rcases Nat.eq_or_lt_of_le hn with h | h
  · subst h
    rw [hc.2]
    simp only [List.getElem?_eq_none (le_refl _), reduceCtorEq, iff_false]
    exact fun h => hv h.symm
  · rw [hc.1 n h, List.getD_eq_getElem _ _ h, List.getElem?_eq_getElem h]
    simp

theorem scheme_matches_iff (s : Scheme) (hs0 : (0 : Int) ∉ s.str)
    (hlen : s.len = s.str.length) (cand : List Int) (url : Buffer) (hc : HoldsString url cand) :
    (strncmp_eq (chars s.str) url 0 s.len = true ∧ url s.len = 58
        ∧ is_url_char (url (s.len + 1)) = true) ↔
      (cand.take s.len = s.str ∧ cand[s.len]? = some 58
        ∧ ∃ b, cand[s.len + 1]? = some b ∧ is_url_char b = true) := by
  have h1 := strncmp_eq_iff s.str hs0 url s.len 0 (by omega)
  have h2 := take_eq_iff_of_holds s.str cand hs0 url hc
  have h3 : strncmp_eq (chars s.str) url 0 s.len = true ↔ cand.take s.len = s.str := by
    rw [h1, hlen, ← h2]
    exact ⟨fun h j hj => h j (Nat.zero_le _) hj, fun h j _ hj => h j hj⟩
  rw [h3]
  constructor
  · rintro ⟨ha, hb, hd⟩
    have hle : s.len ≤ cand.length := by
      have := congrArg List.length ha
      simp at this
      omega
    have hb2 := (holds_eq_colon cand url hc s.len hle 58 (by decide)).1 hb
    have hlt : s.len < cand.length := by
      by_contra hge
      rw [List.getElem?_eq_none (by omega)] at hb2
      exact absurd hb2 (by simp)
    refine ⟨ha, hb2, url (s.len + 1), ?_, hd⟩
    exact (holds_eq_colon cand url hc (s.len + 1) hlt _ (is_url_char_ne_zero hd)).1 rfl
  · rintro ⟨ha, hb, b, hb1, hb2⟩
    have hlt : s.len < cand.length := by
      by_contra hge
      rw [List.getElem?_eq_none (by omega)] at hb
      exact absurd hb (by simp)
    refine ⟨ha, (holds_eq_colon cand url hc s.len (by omega) 58 (by decide)).2 hb, ?_⟩
    rw [(holds_eq_colon cand url hc (s.len + 1) hlt b (is_url_char_ne_zero hb2)).2 hb1]
    exact hb2

theorem matchesScheme_iff (s cand : List Int) :
    matchesScheme s cand = true ↔
      (cand.take s.length = s ∧ cand[s.length]? = some 58
        ∧ ∃ b, cand[s.length + 1]? = some b ∧ is_url_char b = true) := by
  simp only [matchesScheme, Bool.and_eq_true, beq_iff_eq, and_assoc]
  cases cand[s.length + 1]? <;> simp

theorem is_valid_url_eq_matchesTable (T : List Scheme) (hT : WellFormed T) (cand : List Int)
    (url : Buffer) (hc : HoldsString url cand) :
    is_valid_url T url = matchesTable T cand := by
  rw [Bool.eq_iff_iff, is_valid_url_iff_exists, matchesTable, List.any_eq_true]
  constructor
  · rintro ⟨s, hs, h⟩
    refine ⟨s, hs, ?_⟩
    have h2 := (scheme_matches_iff s (hT s hs).1 (hT s hs).2 cand url hc).1 h
    rw [matchesScheme_iff, ← (hT s hs).2]
    exact h2
  · rintro ⟨s, hs, h⟩
    refine ⟨s, hs, ?_⟩
    rw [matchesScheme_iff, ← (hT s hs).2] at h
    exact (scheme_matches_iff s (hT s hs).1 (hT s hs).2 cand url hc).2 h

/-! ## Buffer contents -/

theorem store_write (buffer : Buffer) (p : Nat) (v : Int) (l : List Int) :
    store (write buffer p v) (p + 1) l = store buffer p (v :: l) := by
  funext i
  simp only [store, write, List.length_cons]
  by_cases h1 : i = p
  · subst h1
    simp
  · by_cases h2 : p + 1 ≤ i ∧ i < p + 1 + l.length
    · have h3 : p ≤ i ∧ i < p + (l.length + 1) := by omega
      obtain ⟨k, hk⟩ : ∃ k, i - p = k + 1 := ⟨i - p - 1, by omega⟩
      have h4 : i - (p + 1) = k := by omega
      simp only [h2, h3, and_self, if_true, hk, h4, List.getD_cons_succ]
    · have h3 : ¬ (p ≤ i ∧ i < p + (l.length + 1)) := by omega
      simp only [h2, h3, if_false, h1]

theorem write_eq_store (buffer : Buffer) (p : Nat) (v : Int) :
    write buffer p v = store buffer p [v] := by
  funext i
  simp only [store, write, List.length_singleton]
  by_cases h1 : i = p
  · subst h1
    simp
  · have h3 : ¬ (p ≤ i ∧ i < p + 1) := by omega
    simp only [h1, h3, if_false]

theorem store_nil (buffer : Buffer) (p : Nat) : store buffer p [] = buffer := by
  funext i
  simp [store]

theorem store_apply_lt (buffer : Buffer) (l : List Int) (i : Nat) (h : i < l.length) :
    store buffer 0 l i = l.getD i 0 := by
  simp [store, h]

theorem holdsString_store (buffer : Buffer) (l : List Int) :
    HoldsString (store buffer 0 (l ++ [0])) l := by
  constructor
  · intro i hi
    rw [store_apply_lt _ _ _ (by simp; omega)]
    rw [List.getD_eq_getElem _ _ (by simp; omega), List.getD_eq_getElem _ _ hi]
    exact List.getElem_append_left hi
  · rw [store_apply_lt _ _ _ (by simp)]
    rw [List.getD_eq_getElem _ _ (by simp)]
    simp

theorem c_string_of_holds (l : List Int) (hl : (0 : Int) ∉ l) :
    ∀ (s : Buffer) (i n : Nat), l.length < n →
      (∀ j, j < l.length → s (i + j) = l.getD j 0) → s (i + l.length) = 0 →
      c_string s i n = l := by
  induction l with
  | nil =>
    intro s i n hn _ h0
    obtain ⟨m, rfl⟩ : ∃ m, n = m + 1 := ⟨n - 1, by simp at hn; omega⟩
    simp only [List.length_nil, Nat.add_zero] at h0
    simp [c_string, h0]
  | cons c q ih =>
    intro s i n hn h1 h0
    have hc : c ≠ 0 := fun h => hl (by simp [h])
    have hq : (0 : Int) ∉ q := fun h => hl (List.mem_cons_of_mem _ h)
    simp only [List.length_cons] at hn h0
    obtain ⟨m, rfl⟩ : ∃ m, n = m + 1 := ⟨n - 1, by omega⟩
    have hi : s i = c := by simpa using h1 0 (by simp)
    simp only [c_string, hi, hc, if_false, List.cons.injEq, true_and]
    apply ih hq s (i + 1) m (by omega)
    · intro j hj
      have := h1 (j + 1) (by simp; omega)
      simpa [Nat.add_assoc, Nat.add_comm 1 j] using this
    · rw [← h0]
      congr 1
      omega

theorem c_string_store (buffer : Buffer) (l : List Int) (hl : (0 : Int) ∉ l)
    (hlen : l.length < BUFSIZE) :
    c_string (store buffer 0 (l ++ [0])) 0 BUFSIZE = l := by
  have h := holdsString_store buffer l
  apply c_string_of_holds l hl _ 0 BUFSIZE hlen
  · intro j hj
    rw [Nat.zero_add]
    exact h.1 j hj
  · rw [Nat.zero_add]
    exact h.2

theorem not_mem_zero_of_url (l : List Int) (h : ∀ b ∈ l, is_url_char b = true) :
    (0 : Int) ∉ l :=
  fun h0 => absurd (h 0 h0) (by decide)

/-! ## The loops of `read_next_candidate` -/

theorem skip_loop_append (junk f : List Int) (h : ∀ b ∈ junk, is_url_char b = false) :
    skip_loop (junk ++ f) = skip_loop f := by
  induction junk with
  | nil => rfl
  | cons c q ih =>
    have hc := h c (List.mem_cons_self _ _)
    simp only [List.cons_append, skip_loop, hc, Bool.false_eq_true, if_false]
    exact ih (fun b hb => h b (List.mem_cons_of_mem _ hb))

theorem skip_loop_length (f : List Int) (c : Int) (f1 : List Int)
    (h : skip_loop f = some (c, f1)) : f1.length < f.length := by
  induction f with
  | nil => simp [skip_loop] at h
  | cons d q ih =>
    simp only [skip_loop] at h
    by_cases hd : is_url_char d = true
    · simp only [hd, if_true, Option.some.injEq, Prod.mk.injEq] at h
      rw [← h.2]
      simp
    · simp only [hd, if_false, Bool.false_eq_true] at h
      have := ih h
      simp only [List.length_cons]
      omega

theorem fill_loop_length (n : Nat) : ∀ (p : Nat) (f : List Int) (buffer : Buffer),
    (∀ f2 b2, fill_loop n p f buffer = Fill.returned f2 b2 → f2.length ≤ f.length)
    ∧ (∀ f2 b2, fill_loop n p f buffer = Fill.full f2 b2 → f2.length ≤ f.length) := by
  induction n with
  | zero =>
    intro p f buffer
    simp only [fill_loop, reduceCtorEq, false_implies, implies_true, Fill.full.injEq,
      true_and]
    rintro f2 b2 ⟨h, _⟩
    rw [h]
  | succ n ih =>
    intro p f buffer
    have hlen : (fgetc f).2.length ≤ f.length := by
      cases f <;> simp [fgetc]
    simp only [fill_loop]
    by_cases hu : is_url_char (fgetc f).1 = true
    · simp only [hu, Bool.not_true, Bool.false_eq_true, if_false]
      have := ih (p + 1) (fgetc f).2 (write buffer p (fgetc f).1)
      exact ⟨fun f2 b2 h => le_trans (this.1 f2 b2 h) hlen,
        fun f2 b2 h => le_trans (this.2 f2 b2 h) hlen⟩
    · have hu2 : is_url_char (fgetc f).1 = false := by simpa using hu
      simp only [hu2, Bool.not_false, if_true, Fill.returned.injEq, reduceCtorEq,
        false_implies, implies_true, and_true]
      rintro f2 b2 ⟨h, _⟩
      rw [← h]
      exact hlen

theorem fill_loop_short (n : Nat) : ∀ (p : Nat) (r rest : List Int) (buffer : Buffer),
    (∀ b ∈ r, is_url_char b = true) → Boundary rest → r.length < n →
    fill_loop n p (r ++ rest) buffer
      = Fill.returned rest.tail (store buffer p (r ++ [0])) := by
  induction n with
  | zero =>
    intro p r rest buffer _ _ hn
    omega
  | succ n ih =>
    intro p r rest buffer hr hb hn
    cases r with
    | nil =>
      cases rest with
      | nil =>
        simp only [List.nil_append, fill_loop, fgetc, is_url_char_EOF, Bool.not_false,
          if_true, List.tail_nil, write_eq_store]
      | cons d q =>
        have hd : is_url_char d = false := hb d rfl
        simp only [List.nil_append, fill_loop, fgetc, hd, Bool.not_false, if_true,
          List.tail_cons, write_eq_store]
    | cons c q =>
      have hc := hr c (List.mem_cons_self _ _)
      simp only [List.cons_append, fill_loop, fgetc, hc, Bool.not_true, Bool.false_eq_true,
        if_false]
      rw [ih (p + 1) q rest (write buffer p c) (fun b hb => hr b (List.mem_cons_of_mem _ hb))
        hb (by simpa using hn), store_write]

theorem fill_loop_long (n : Nat) : ∀ (p : Nat) (r rest : List Int) (buffer : Buffer),
    (∀ b ∈ r, is_url_char b = true) → n ≤ r.length →
    fill_loop n p (r ++ rest) buffer
      = Fill.full (r.drop n ++ rest) (store buffer p (r.take n)) := by
  induction n with
  | zero =>
    intro p r rest buffer _ _
    simp [fill_loop, store_nil]
  | succ n ih =>
    intro p r rest buffer hr hn
    cases r with
    | nil => simp at hn
    | cons c q =>
      have hc := hr c (List.mem_cons_self _ _)
      simp only [List.cons_append, fill_loop, fgetc, hc, Bool.not_true, Bool.false_eq_true,
        if_false]
      rw [ih (p + 1) q rest (write buffer p c) (fun b hb => hr b (List.mem_cons_of_mem _ hb))
        (by simpa using hn), store_write]
      simp

theorem discard_loop_append (r rest : List Int) (hr : ∀ b ∈ r, is_url_char b = true)
    (hb : Boundary rest) : discard_loop (r ++ rest) = rest.tail := by
  induction r with
  | nil =>
    cases rest with
    | nil => rfl
    | cons d q =>
      have hd : is_url_char d = false := hb d rfl
      simp [discard_loop, hd]
  | cons c q ih =>
    have hc := hr c (List.mem_cons_self _ _)
    simp only [List.cons_append, discard_loop, hc, if_true]
    exact ih (fun b hb => hr b (List.mem_cons_of_mem _ hb))

theorem discard_loop_length (f : List Int) : (discard_loop f).length ≤ f.length := by
  induction f with
  | nil => simp [discard_loop]
  | cons c q ih =>
    simp only [discard_loop]
    split
    · simp only [List.length_cons]
      omega
    · simp

/-! ## Fuel: the outer loops always have enough of it -/

theorem read_next_candidate_loop_length (fuel : Nat) : ∀ (f : List Int) (buffer : Buffer),
    (read_next_candidate_loop fuel f buffer).2.1.length ≤ f.length
    ∧ ((read_next_candidate_loop fuel f buffer).1 = true →
        (read_next_candidate_loop fuel f buffer).2.1.length < f.length) := by
  induction fuel with
  | zero =>
    intro f buffer
    simp [read_next_candidate_loop]
  | succ fuel ih =>
    intro f buffer
    rw [read_next_candidate_loop]
    cases hs : skip_loop f with
    | none => simp
    | some cf =>
      obtain ⟨c, f1⟩ := cf
      have h1 := skip_loop_length f c f1 hs
      simp only []
      cases hf : fill_loop (BUFSIZE - 1) 1 f1 (write buffer 0 c) with
      | returned f2 b2 =>
        have h2 := (fill_loop_length _ _ _ _).1 f2 b2 hf
        simp only []
        exact ⟨by omega, fun _ => by omega⟩
      | full f2 b2 =>
        have h2 := (fill_loop_length _ _ _ _).2 f2 b2 hf
        have h3 := discard_loop_length f2
        have h4 := ih (discard_loop f2) b2
        simp only []
        exact ⟨by omega, fun _ => by omega⟩

theorem read_next_candidate_loop_fuel (fuel1 : Nat) :
    ∀ (fuel2 : Nat) (f : List Int) (buffer : Buffer),
      f.length < fuel1 → f.length < fuel2 →
      read_next_candidate_loop fuel1 f buffer = read_next_candidate_loop fuel2 f buffer := by
  induction fuel1 with
  | zero =>
    intro fuel2 f buffer h1 _
    omega
  | succ fuel1 ih =>
    intro fuel2 f buffer h1 h2
    obtain ⟨m, rfl⟩ : ∃ m, fuel2 = m + 1 := ⟨fuel2 - 1, by omega⟩
    rw [read_next_candidate_loop, read_next_candidate_loop]
    cases hs : skip_loop f with
    | none => rfl
    | some cf =>
      obtain ⟨c, f1⟩ := cf
      have h3 := skip_loop_length f c f1 hs
      simp only []
      cases hf : fill_loop (BUFSIZE - 1) 1 f1 (write buffer 0 c) with
      | returned f2 b2 => rfl
      | full f2 b2 =>
        have h4 := (fill_loop_length _ _ _ _).2 f2 b2 hf
        have h5 := discard_loop_length f2
        simp only []
        exact ih m (discard_loop f2) b2 (by omega) (by omega)

/-- Unfolding of `read_next_candidate`: one turn of its outer loop. -/
theorem read_next_candidate_unfold (f : List Int) (buffer : Buffer) :
    read_next_candidate f buffer
      = match skip_loop f with
        | none => (false, [], buffer)
        | some (next_char, f1) =>
          match fill_loop (BUFSIZE - 1) 1 f1 (write buffer 0 next_char) with
          | Fill.returned f2 b2 => (true, f2, b2)
          | Fill.full f2 b2 => read_next_candidate (discard_loop f2) b2 := by
  rw [read_next_candidate, read_next_candidate_loop]
  cases hs : skip_loop f with
  | none => rfl
  | some cf =>
    obtain ⟨c, f1⟩ := cf
    have h3 := skip_loop_length f c f1 hs
    simp only []
    cases hf : fill_loop (BUFSIZE - 1) 1 f1 (write buffer 0 c) with
    | returned f2 b2 => rfl
    | full f2 b2 =>
      have h4 := (fill_loop_length _ _ _ _).2 f2 b2 hf
      have h5 := discard_loop_length f2
      simp only [read_next_candidate]
      exact read_next_candidate_loop_fuel _ _ _ _ (by omega) (by omega)

theorem read_next_candidate_length (f : List Int) (buffer : Buffer) :
    (read_next_candidate f buffer).2.1.length ≤ f.length
    ∧ ((read_next_candidate f buffer).1 = true →
        (read_next_candidate f buffer).2.1.length < f.length) :=
  read_next_candidate_loop_length _ f buffer

theorem find_next_url_loop_length (T : List Scheme) (fuel : Nat) :
    ∀ (f : List Int) (buffer : Buffer),
    (find_next_url_loop T fuel f buffer).2.1.length ≤ f.length
    ∧ ((find_next_url_loop T fuel f buffer).1 = true →
        (find_next_url_loop T fuel f buffer).2.1.length < f.length) := by
  induction fuel with
  | zero =>
    intro f buffer
    simp [find_next_url_loop]
  | succ fuel ih =>
    intro f buffer
    rw [find_next_url_loop]
    have h1 := read_next_candidate_length f buffer
    split
    · exact h1
    · have h2 := ih (read_next_candidate f buffer).2.1 (read_next_candidate f buffer).2.2
      exact ⟨by omega, fun h => by have := h2.2 h; omega⟩

theorem find_next_url_loop_fuel (T : List Scheme) (fuel1 : Nat) :
    ∀ (fuel2 : Nat) (f : List Int) (buffer : Buffer),
      f.length < fuel1 → f.length < fuel2 →
      find_next_url_loop T fuel1 f buffer = find_next_url_loop T fuel2 f buffer := by
  induction fuel1 with
  | zero =>
    intro fuel2 f buffer h1 _
    omega
  | succ fuel1 ih =>
    intro fuel2 f buffer h1 h2
    obtain ⟨m, rfl⟩ : ∃ m, fuel2 = m + 1 := ⟨fuel2 - 1, by omega⟩
    rw [find_next_url_loop, find_next_url_loop]
    split
    · rfl
    · rename_i hcond
      have h3 := read_next_candidate_length f buffer
      have h4 : (read_next_candidate f buffer).1 = true := by
        cases h : (read_next_candidate f buffer).1
        · simp [h] at hcond
        · rfl
      have h5 := h3.2 h4
      exact ih m _ _ (by omega) (by omega)

/-- Unfolding of `find_next_url`: one turn of its loop. -/
theorem find_next_url_unfold (T : List Scheme) (f : List Int) (buffer : Buffer) :
    find_next_url T f buffer
      = if (!(read_next_candidate f buffer).1
            || is_valid_url T (read_next_candidate f buffer).2.2) = true
        then read_next_candidate f buffer
        else find_next_url T (read_next_candidate f buffer).2.1
          (read_next_candidate f buffer).2.2 := by
  rw [find_next_url, find_next_url_loop]
  split
  · rfl
  · rename_i hcond
    have h3 := read_next_candidate_length f buffer
    have h4 : (read_next_candidate f buffer).1 = true := by
      cases h : (read_next_candidate f buffer).1
      · simp [h] at hcond
      · rfl
    have h5 := h3.2 h4
    simp only [find_next_url]
    exact find_next_url_loop_fuel T _ _ _ _ (by omega) (by omega)

theorem find_next_url_length (T : List Scheme) (f : List Int) (buffer : Buffer) :
    (find_next_url T f buffer).2.1.length ≤ f.length
    ∧ ((find_next_url T f buffer).1 = true →
        (find_next_url T f buffer).2.1.length < f.length) :=
  find_next_url_loop_length T _ f buffer

theorem run_loop_fuel (T : List Scheme) (fuel1 : Nat) :
    ∀ (fuel2 : Nat) (f : List Int) (buffer : Buffer),
      f.length < fuel1 → f.length < fuel2 →
      run_loop T fuel1 f buffer = run_loop T fuel2 f buffer := by
  induction fuel1 with
  | zero =>
    intro fuel2 f buffer h1 _
    omega
  | succ fuel1 ih =>
    intro fuel2 f buffer h1 h2
    obtain ⟨m, rfl⟩ : ∃ m, fuel2 = m + 1 := ⟨fuel2 - 1, by omega⟩
    rw [run_loop, run_loop]
    split
    · rename_i hcond
      have h5 := (find_next_url_length T f buffer).2 hcond
      rw [ih m _ _ (by omega) (by omega)]
    · rfl

/-- Unfolding of `run`: one turn of its loop. -/
theorem run_unfold (T : List Scheme) (f : List Int) (buffer : Buffer) :
    run T f buffer
      = if (find_next_url T f buffer).1 = true
        then c_string (find_next_url T f buffer).2.2 0 BUFSIZE
          :: run T (find_next_url T f buffer).2.1 (find_next_url T f buffer).2.2
        else [] := by
  rw [run, run_loop]
  split
  · rename_i hcond
    have h5 := (find_next_url_length T f buffer).2 hcond
    simp only [run]
    rw [run_loop_fuel T _ _ _ _ (by omega) (Nat.lt_succ_self _)]
  · rfl

/-! ## One call of `read_next_candidate` on a stream cut into runs -/

theorem skip_loop_none (f : List Int) (h : ∀ b ∈ f, is_url_char b = false) :
    skip_loop f = none := by
  have := skip_loop_append f [] h
  rw [List.append_nil] at this
  rw [this]
  rfl

theorem read_next_candidate_none (f : List Int) (h : ∀ b ∈ f, is_url_char b = false)
    (buffer : Buffer) : read_next_candidate f buffer = (false, [], buffer) := by
  rw [read_next_candidate_unfold, skip_loop_none f h]

theorem read_next_candidate_skip (junk f : List Int)
    (h : ∀ b ∈ junk, is_url_char b = false) (buffer : Buffer) :
    read_next_candidate (junk ++ f) buffer = read_next_candidate f buffer := by
  rw [read_next_candidate_unfold, read_next_candidate_unfold f, skip_loop_append junk f h]

theorem read_next_candidate_short (r rest : List Int) (hne : r ≠ [])
    (hr : ∀ b ∈ r, is_url_char b = true) (hb : Boundary rest)
    (hlen : r.length ≤ BUFSIZE - 1) (buffer : Buffer) :
    read_next_candidate (r ++ rest) buffer
      = (true, rest.tail, store buffer 0 (r ++ [0])) := by
  cases r with
  | nil => exact absurd rfl hne
  | cons c q =>
    have hc := hr c (List.mem_cons_self _ _)
    have hq : ∀ b ∈ q, is_url_char b = true := fun b hb => hr b (List.mem_cons_of_mem _ hb)
    have hlq : q.length < BUFSIZE - 1 := by
      simp only [List.length_cons] at hlen
      omega
    rw [read_next_candidate_unfold]
    simp only [List.cons_append, skip_loop, hc, if_true, List.append_eq]
    rw [fill_loop_short (BUFSIZE - 1) 1 q rest (write buffer 0 c) hq hb hlq]
    simp only []
    rw [show (1 : Nat) = 0 + 1 from rfl, store_write]

theorem read_next_candidate_long (r rest : List Int)
    (hr : ∀ b ∈ r, is_url_char b = true) (hb : Boundary rest)
    (hlen : BUFSIZE ≤ r.length) (buffer : Buffer) :
    read_next_candidate (r ++ rest) buffer
      = read_next_candidate rest.tail (store buffer 0 (r.take BUFSIZE)) := by
  cases r with
  | nil => simp [BUFSIZE] at hlen
  | cons c q =>
    have hc := hr c (List.mem_cons_self _ _)
    have hq : ∀ b ∈ q, is_url_char b = true := fun b hb => hr b (List.mem_cons_of_mem _ hb)
    have hlq : BUFSIZE - 1 ≤ q.length := by
      simp only [List.length_cons] at hlen
      omega
    rw [read_next_candidate_unfold]
    simp only [List.cons_append, skip_loop, hc, if_true, List.append_eq]
    rw [fill_loop_long (BUFSIZE - 1) 1 q rest (write buffer 0 c) hq hlq]
    simp only []
    rw [discard_loop_append (q.drop (BUFSIZE - 1)) rest
      (fun b hb => hq b (List.mem_of_mem_drop hb)) hb]
    rw [show (1 : Nat) = 0 + 1 from rfl, store_write]
    rfl

/-! ## `find_next_url` and `run` on a stream cut into runs -/

theorem find_next_url_none (T : List Scheme) (f : List Int)
    (h : ∀ b ∈ f, is_url_char b = false) (buffer : Buffer) :
    find_next_url T f buffer = (false, [], buffer) := by
  rw [find_next_url_unfold, read_next_candidate_none f h]
  simp

theorem find_next_url_skip (T : List Scheme) (junk f : List Int)
    (h : ∀ b ∈ junk, is_url_char b = false) (buffer : Buffer) :
    find_next_url T (junk ++ f) buffer = find_next_url T f buffer := by
  rw [find_next_url_unfold, find_next_url_unfold T f, read_next_candidate_skip junk f h]

theorem find_next_url_short (T : List Scheme) (r rest : List Int) (hne : r ≠ [])
    (hr : ∀ b ∈ r, is_url_char b = true) (hb : Boundary rest)
    (hlen : r.length ≤ BUFSIZE - 1) (buffer : Buffer) :
    find_next_url T (r ++ rest) buffer
      = if is_valid_url T (store buffer 0 (r ++ [0])) = true
        then (true, rest.tail, store buffer 0 (r ++ [0]))
        else find_next_url T rest.tail (store buffer 0 (r ++ [0])) := by
  rw [find_next_url_unfold, read_next_candidate_short r rest hne hr hb hlen]
  simp

theorem find_next_url_long (T : List Scheme) (r rest : List Int)
    (hr : ∀ b ∈ r, is_url_char b = true) (hb : Boundary rest)
    (hlen : BUFSIZE ≤ r.length) (buffer : Buffer) :
    find_next_url T (r ++ rest) buffer
      = find_next_url T rest.tail (store buffer 0 (r.take BUFSIZE)) := by
  rw [find_next_url_unfold, find_next_url_unfold T rest.tail,
    read_next_candidate_long r rest hr hb hlen]

theorem run_none (T : List Scheme) (f : List Int)
    (h : ∀ b ∈ f, is_url_char b = false) (buffer : Buffer) :
    run T f buffer = [] := by
  rw [run_unfold, find_next_url_none T f h]
  simp

theorem run_skip (T : List Scheme) (junk f : List Int)
    (h : ∀ b ∈ junk, is_url_char b = false) (buffer : Buffer) :
    run T (junk ++ f) buffer = run T f buffer := by
  rw [run_unfold, run_unfold T f, find_next_url_skip T junk f h]

theorem run_short (T : List Scheme) (r rest : List Int) (hne : r ≠ [])
    (hr : ∀ b ∈ r, is_url_char b = true) (hb : Boundary rest)
    (hlen : r.length ≤ BUFSIZE - 1) (buffer : Buffer) :
    run T (r ++ rest) buffer
      = if is_valid_url T (store buffer 0 (r ++ [0])) = true
        then r :: run T rest.tail (store buffer 0 (r ++ [0]))
        else run T rest.tail (store buffer 0 (r ++ [0])) := by
  rw [run_unfold, find_next_url_short T r rest hne hr hb hlen]
  by_cases hv : is_valid_url T (store buffer 0 (r ++ [0])) = true
  · simp only [hv, if_true]
    rw [c_string_store buffer r (not_mem_zero_of_url r hr) (by simp only [BUFSIZE] at hlen ⊢; omega)]
  · simp only [hv, if_false, Bool.false_eq_true]
    rw [run_unfold T rest.tail]

theorem run_long (T : List Scheme) (r rest : List Int)
    (hr : ∀ b ∈ r, is_url_char b = true) (hb : Boundary rest)
    (hlen : BUFSIZE ≤ r.length) (buffer : Buffer) :
    run T (r ++ rest) buffer = run T rest.tail (store buffer 0 (r.take BUFSIZE)) := by
  rw [run_unfold, run_unfold T rest.tail, find_next_url_long T r rest hr hb hlen]

/-! ## Maximal runs -/

theorem maximalRuns_nil : maximalRuns [] = [] := by
  simp [maximalRuns, List.splitOnP_nil]

theorem maximalRuns_cons_nonurl (c : Int) (f : List Int) (hc : is_url_char c = false) :
    maximalRuns (c :: f) = maximalRuns f := by
  simp [maximalRuns, List.splitOnP_cons, hc]

theorem maximalRuns_append (r rest : List Int) (hne : r ≠ [])
    (hr : ∀ b ∈ r, is_url_char b = true) (hb : Boundary rest) :
    maximalRuns (r ++ rest) = r :: maximalRuns rest.tail := by
  have hr2 : ∀ x ∈ r, ¬ ((fun b => !(is_url_char b)) x = true) := by
    intro x hx
    simp [hr x hx]
  have hre : r.isEmpty = false := by
    cases r with
    | nil => exact absurd rfl hne
    | cons _ _ => rfl
  cases rest with
  | nil =>
    simp only [maximalRuns, List.append_nil, List.splitOnP_eq_single _ _ hr2, List.tail_nil,
      List.splitOnP_nil]
    simp [hre]
  | cons d q =>
    have hd : is_url_char d = false := hb d rfl
    simp only [maximalRuns, List.tail_cons]
    rw [List.splitOnP_first _ r hr2 d (by simp [hd]) q]
    simp [hre]

theorem exists_run_split (f : List Int) :
    ∃ r rest, f = r ++ rest ∧ (∀ b ∈ r, is_url_char b = true) ∧ Boundary rest
      ∧ (∀ c q, f = c :: q → is_url_char c = true → r ≠ []) := by
  induction f with
  | nil =>
    refine ⟨[], [], rfl, by simp, ?_, by simp⟩
    intro b hb
    simp at hb
  | cons c q ih =>
    by_cases hc : is_url_char c = true
    · obtain ⟨r, rest, h1, h2, h3, _⟩ := ih
      refine ⟨c :: r, rest, by rw [h1]; rfl, ?_, h3, by simp⟩
      intro b hb
      rcases List.mem_cons.1 hb with h | h
      · rw [h]; exact hc
      · exact h2 b h
    · refine ⟨[], c :: q, rfl, by simp, ?_, ?_⟩
      · intro b hb
        simp only [List.head?_cons, Option.some.injEq] at hb
        rw [← hb]
        simpa using hc
      · intro c2 q2 h hu
        simp only [List.cons.injEq] at h
        rw [← h.1] at hu
        exact absurd hu hc

theorem getLast?_append_cons (l : List Int) (x : Int) (xs : List Int) :
    (l ++ x :: xs).getLast? = (x :: xs).getLast? := by
  rw [List.getLast?_append]
  cases h : (x :: xs).getLast? with
  | none => simp at h
  | some v => rfl

theorem maximalRuns_mem (n : Nat) : ∀ (S : List Int), S.length ≤ n →
    ∀ u ∈ maximalRuns S,
      (∃ pre post, S = pre ++ u ++ post
        ∧ (∀ b, pre.getLast? = some b → is_url_char b = false)
        ∧ (∀ b, post.head? = some b → is_url_char b = false))
      ∧ u ≠ [] ∧ (∀ b ∈ u, is_url_char b = true) := by
  induction n with
  | zero =>
    intro S hS u hu
    have : S = [] := List.eq_nil_of_length_eq_zero (by omega)
    subst this
    simp [maximalRuns_nil] at hu
  | succ n ih =>
    intro S hS u hu
    cases S with
    | nil => simp [maximalRuns_nil] at hu
    | cons c q =>
      by_cases hc : is_url_char c = true
      · obtain ⟨r, rest, h1, h2, h3, h4⟩ := exists_run_split (c :: q)
        have hne := h4 c q rfl hc
        rw [h1, maximalRuns_append r rest hne h2 h3] at hu
        have hlen : (c :: q).length = r.length + rest.length := by rw [h1]; simp
        have hrpos : 0 < r.length := List.length_pos.2 hne
        rcases List.mem_cons.1 hu with h | h
        · subst h
          refine ⟨⟨[], rest, by rw [h1]; rfl, by simp, h3⟩, hne, h2⟩
        · cases rest with
          | nil => simp [maximalRuns_nil] at h
          | cons d rest2 =>
            have hd : is_url_char d = false := h3 d rfl
            simp only [List.tail_cons] at h
            have hl2 : rest2.length ≤ n := by
              simp only [List.length_cons] at hlen hS
              omega
            obtain ⟨⟨pre, post, e1, e2, e3⟩, e4, e5⟩ := ih rest2 hl2 u h
            refine ⟨⟨r ++ d :: pre, post, ?_, ?_, e3⟩, e4, e5⟩
            · rw [h1, e1]
              simp
            · intro b hb
              cases pre with
              | nil =>
                simp at hb
                rw [← hb]
                exact hd
              | cons x xs =>
                apply e2
                rw [← hb, getLast?_append_cons, List.getLast?_cons_cons]
      · have hc2 : is_url_char c = false := by simpa using hc
        rw [maximalRuns_cons_nonurl c q hc2] at hu
        obtain ⟨⟨pre, post, e1, e2, e3⟩, e4, e5⟩ :=
          ih q (by simpa using hS) u hu
        refine ⟨⟨c :: pre, post, by rw [e1]; rfl, ?_, e3⟩, e4, e5⟩
        intro b hb
        cases pre with
        | nil =>
          simp at hb
          rw [← hb]
          exact hc2
        | cons x xs =>
          apply e2
          rw [← hb]
          simp [List.getLast?_cons_cons]

theorem mem_maximalRuns (n : Nat) : ∀ (pre u post : List Int), pre.length ≤ n →
    u ≠ [] → (∀ b ∈ u, is_url_char b = true) →
    (∀ b, pre.getLast? = some b → is_url_char b = false) → Boundary post →
    u ∈ maximalRuns (pre ++ u ++ post) := by
  induction n with
  | zero =>
    intro pre u post hp hne hu _ hpost
    have : pre = [] := List.eq_nil_of_length_eq_zero (by omega)
    subst this
    rw [List.nil_append, maximalRuns_append u post hne hu hpost]
    exact List.mem_cons_self _ _
  | succ n ih =>
    intro pre u post hp hne hu hpre hpost
    cases pre with
    | nil =>
      rw [List.nil_append, maximalRuns_append u post hne hu hpost]
      exact List.mem_cons_self _ _
    | cons c q =>
      by_cases hc : is_url_char c = true
      · obtain ⟨r, rest, h1, h2, h3, h4⟩ := exists_run_split (c :: q)
        have hr := h4 c q rfl hc
        cases rest with
        | nil =>
          exfalso
          rw [List.append_nil] at h1
          obtain ⟨b, hb⟩ : ∃ b, (c :: q).getLast? = some b :=
            ⟨_, List.getLast?_eq_getLast _ (by simp)⟩
          have h5 := hpre b hb
          have h6 := h2 b (by rw [← h1]; exact List.mem_of_getLast?_eq_some hb)
          rw [h5] at h6
          exact absurd h6 (by decide)
        | cons d rest2 =>
          have hd : is_url_char d = false := h3 d rfl
          have hlen : (c :: q).length = r.length + (rest2.length + 1) := by
            rw [h1]; simp
          have hrpos : 0 < r.length := List.length_pos.2 hr
          have hb2 : Boundary (d :: (rest2 ++ u ++ post)) := by
            intro b hb
            simp only [List.head?_cons, Option.some.injEq] at hb
            rw [← hb]
            exact hd
          have e : c :: q ++ u ++ post = r ++ (d :: (rest2 ++ u ++ post)) := by
            rw [h1]
            simp
          rw [e, maximalRuns_append r _ hr h2 hb2, List.tail_cons]
          apply List.mem_cons_of_mem
          apply ih rest2 u post (by simp only [List.length_cons] at hp hlen; omega) hne hu _
            hpost
          intro b hb
          apply hpre
          rw [h1]
          cases rest2 with
          | nil => simp at hb
          | cons x xs =>
            rw [getLast?_append_cons, List.getLast?_cons_cons]
            exact hb
      · have hc2 : is_url_char c = false := by simpa using hc
        have e : c :: q ++ u ++ post = c :: (q ++ u ++ post) := by simp
        rw [e, maximalRuns_cons_nonurl c _ hc2]
        apply ih q u post (by simpa using hp) hne hu _ hpost
        intro b hb
        apply hpre
        cases q with
        | nil => simp at hb
        | cons x xs =>
          rw [List.getLast?_cons_cons]
          exact hb

/-! ## The pipeline against the maximal runs -/

theorem tail_length_le_of_split (c : Int) (q r rest : List Int) (n : Nat)
    (h1 : c :: q = r ++ rest) (hne : r ≠ []) (hS : (c :: q).length ≤ n + 1) :
    rest.tail.length ≤ n := by
  have hlen : (c :: q).length = r.length + rest.length := by rw [h1]; simp
  have hrpos : 0 < r.length := List.length_pos.2 hne
  rw [List.length_tail]
  omega

theorem run_sound_aux (T : List Scheme) (n : Nat) : ∀ (f : List Int), f.length ≤ n →
    ∀ (buffer : Buffer) (u : List Int), u ∈ run T f buffer →
      u ∈ maximalRuns f ∧ u.length ≤ BUFSIZE - 1
        ∧ ∃ url, HoldsString url u ∧ is_valid_url T url = true := by
  induction n with
  | zero =>
    intro f hf buffer u hu
    have : f = [] := List.eq_nil_of_length_eq_zero (by omega)
    subst this
    rw [run_none T [] (by simp)] at hu
    simp at hu
  | succ n ih =>
    intro f hf buffer u hu
    cases f with
    | nil =>
      rw [run_none T [] (by simp)] at hu
      simp at hu
    | cons c q =>
      by_cases hc : is_url_char c = true
      · obtain ⟨r, rest, h1, h2, h3, h4⟩ := exists_run_split (c :: q)
        have hne := h4 c q rfl hc
        have hl2 := tail_length_le_of_split c q r rest n h1 hne hf
        rw [h1, maximalRuns_append r rest hne h2 h3]
        rw [h1] at hu
        by_cases hl : r.length ≤ BUFSIZE - 1
        · rw [run_short T r rest hne h2 h3 hl] at hu
          by_cases hv : is_valid_url T (store buffer 0 (r ++ [0])) = true
          · simp only [hv, if_true] at hu
            rcases List.mem_cons.1 hu with h | h
            · subst h
              exact ⟨List.mem_cons_self _ _, hl, _, holdsString_store buffer u, hv⟩
            · obtain ⟨e1, e2⟩ := ih rest.tail hl2 _ u h
              exact ⟨List.mem_cons_of_mem _ e1, e2⟩
          · simp only [hv, if_false, Bool.false_eq_true] at hu
            obtain ⟨e1, e2⟩ := ih rest.tail hl2 _ u hu
            exact ⟨List.mem_cons_of_mem _ e1, e2⟩
        · rw [run_long T r rest h2 h3 (by omega)] at hu
          obtain ⟨e1, e2⟩ := ih rest.tail hl2 _ u hu
          exact ⟨List.mem_cons_of_mem _ e1, e2⟩
      · have hc2 : is_url_char c = false := by simpa using hc
        rw [maximalRuns_cons_nonurl c q hc2]
        have hsk := run_skip T [c] q (by simpa using hc2) buffer
        rw [List.singleton_append] at hsk
        rw [hsk] at hu
        exact ih q (by simpa using hf) buffer u hu

theorem run_eq_filter_aux (T : List Scheme) (hT : WellFormed T) (n : Nat) :
    ∀ (f : List Int), f.length ≤ n → ∀ (buffer : Buffer),
      run T f buffer
        = (maximalRuns f).filter
            (fun r => decide (r.length ≤ BUFSIZE - 1) && matchesTable T r) := by
  induction n with
  | zero =>
    intro f hf buffer
    have : f = [] := List.eq_nil_of_length_eq_zero (by omega)
    subst this
    rw [run_none T [] (by simp), maximalRuns_nil]
    rfl
  | succ n ih =>
    intro f hf buffer
    cases f with
    | nil =>
      rw [run_none T [] (by simp), maximalRuns_nil]
      rfl
    | cons c q =>
      by_cases hc : is_url_char c = true
      · obtain ⟨r, rest, h1, h2, h3, h4⟩ := exists_run_split (c :: q)
        have hne := h4 c q rfl hc
        have hl2 := tail_length_le_of_split c q r rest n h1 hne hf
        rw [h1, maximalRuns_append r rest hne h2 h3]
        by_cases hl : r.length ≤ BUFSIZE - 1
        · rw [run_short T r rest hne h2 h3 hl,
            is_valid_url_eq_matchesTable T hT r _ (holdsString_store buffer r),
            ih rest.tail hl2]
          by_cases hm : matchesTable T r = true
          · simp [hm, hl]
          · simp [hm]
        · rw [run_long T r rest h2 h3 (by omega), ih rest.tail hl2]
          simp [hl]
      · have hc2 : is_url_char c = false := by simpa using hc
        rw [maximalRuns_cons_nonurl c q hc2]
        have hsk := run_skip T [c] q (by simpa using hc2) buffer
        rw [List.singleton_append] at hsk
        rw [hsk]
        exact ih q (by simpa using hf) buffer

theorem scenarioC_url (n : Nat) : ∀ b ∈ scenarioC n, is_url_char b = true := by
  intro b hb
  simp only [scenarioC, List.mem_append, List.mem_replicate] at hb
  rcases hb with ⟨_, h⟩ | h
  · rw [h]
    decide
  · revert b
    decide

theorem run_scenarioC (T : List Scheme) (n : Nat) (hn : BUFSIZE ≤ n + 9)
    (buffer : Buffer) : run T (scenarioC n) buffer = [] := by
  have h := run_long T (scenarioC n) [] (scenarioC_url n) (by intro b hb; simp at hb)
    (by simp [scenarioC, httpOk]; omega) buffer
  rw [List.append_nil] at h
  rw [h]
  exact run_none T _ (by simp) _

theorem is_valid_scheme_length (p : List Int) (hp : (0 : Int) ∉ p)
    (h : is_valid_scheme p = true) : p.length ≤ BUFSIZE - 1 := by
  have h2 := is_valid_scheme_append p [] hp rfl
  rw [List.append_nil] at h2
  exact (h2.1 h).2

theorem replicate_a_valid (n : Nat) (hn : n + 1 ≤ BUFSIZE - 1) :
    is_valid_scheme (List.replicate (n + 1) 97) = true := by
  have hp : (0 : Int) ∉ List.replicate (n + 1) 97 := by
    intro h
    exact absurd (List.eq_of_mem_replicate h) (by decide)
  have h2 := is_valid_scheme_append (List.replicate (n + 1) 97) [] hp rfl
  rw [List.append_nil] at h2
  rw [h2]
  refine ⟨⟨97, List.replicate n 97, rfl, by decide, ?_⟩, by simpa using hn⟩
  intro d hd
  rw [List.eq_of_mem_replicate hd]
  decide

/-- Every table `main` can select is well-formed: the default one, and the one
`parse_schemes` builds from a (NUL-free) option string. -/
theorem main_schemes_wellFormed (option_s : Option (List Int)) (T : List Scheme)
    (hs : ∀ s, option_s = some s → (0 : Int) ∉ s) (h : main_schemes option_s = some T) :
    WellFormed T := by
  cases option_s with
  | none =>
    simp only [main_schemes, Option.some.injEq] at h
    subst h
    unfold WellFormed
    decide
  | some s =>
    have hs0 := hs s rfl
    simp only [main_schemes] at h
    rw [parse_schemes_eq s hs0] at h
    by_cases hall : (s.splitOn 44).all is_valid_scheme = true
    · simp only [hall, if_true, Option.some.injEq] at h
      subst h
      intro x hx
      obtain ⟨p, hp, rfl⟩ := List.mem_map.1 hx
      exact ⟨fun h0 => hs0 (mem_of_mem_splitOn s p hp 0 h0), rfl⟩
    · simp only [hall, if_false, Bool.false_eq_true, reduceCtorEq] at h

/-! ## Claims -/

/-- C1 (soundness of the pipeline).  Every string `u` written by `run` over the
stream `S` with the table `T`, whatever the buffer holds at the start, occurs
in `S` as `S = pre ++ u ++ post` where the byte before it (if any) and the byte
after it (if any) are not URL-class; `u` is non-empty, all its bytes are
URL-class, and `is_valid_url` accepts it for `T` when the buffer holds it
NUL-terminated (for a well-formed table this is the matching rule of the
specification). -/
theorem run_sound (S : List Int) (T : List Scheme) (buffer : Buffer) (u : List Int)
    (h : u ∈ run T S buffer) :
    (∃ pre post, S = pre ++ u ++ post
        ∧ (∀ b, pre.getLast? = some b → is_url_char b = false)
        ∧ (∀ b, post.head? = some b → is_url_char b = false))
      ∧ u ≠ [] ∧ (∀ b ∈ u, is_url_char b = true)
      ∧ (∃ url, HoldsString url u ∧ is_valid_url T url = true)
      ∧ (WellFormed T → matchesTable T u = true) := by
  obtain ⟨h1, _, url, h3, h4⟩ := run_sound_aux T S.length S le_rfl buffer u h
  obtain ⟨e1, e2, e3⟩ := maximalRuns_mem S.length S le_rfl u h1
  refine ⟨e1, e2, e3, ⟨url, h3, h4⟩, fun hT => ?_⟩
  rw [← is_valid_url_eq_matchesTable T hT u url h3]
  exact h4

/-- Instance of C1: `http://x.io` is written for `see http://x.io and bad://y`
with the default table, and is delimited in the stream as the theorem says. -/
theorem run_sound_witness :
    httpXio ∈ run default_table scenarioA buffer0
      ∧ (∃ pre post, scenarioA = pre ++ httpXio ++ post
        ∧ (∀ b, pre.getLast? = some b → is_url_char b = false)
        ∧ (∀ b, post.head? = some b → is_url_char b = false)) :=
  ⟨by decide, (run_sound scenarioA default_table buffer0 httpXio (by decide)).1⟩

/-- C2 (completeness of the pipeline).  For every stream `S`, every well-formed
table `T` and every initial buffer, the list of strings written by `run` is
exactly the list of the maximal URL-class runs of `S`, in stream order and one
per occurrence, that are at most `BUFSIZE - 1 = 511` bytes long and that some
scheme of `T` matches (scheme, then ':', then one more URL-class byte).  In
particular every non-empty run of URL-class bytes of `S` that is delimited by
bytes that are not URL-class (or by the ends of the stream), is at most 511
bytes long and matches a scheme, is written. -/
theorem run_complete (S : List Int) (T : List Scheme) (hT : WellFormed T)
    (buffer : Buffer) :
    run T S buffer
        = (maximalRuns S).filter
            (fun r => decide (r.length ≤ BUFSIZE - 1) && matchesTable T r)
      ∧ ∀ pre u post, S = pre ++ u ++ post → u ≠ [] →
          (∀ b ∈ u, is_url_char b = true) →
          (∀ b, pre.getLast? = some b → is_url_char b = false) →
          (∀ b, post.head? = some b → is_url_char b = false) →
          u.length ≤ BUFSIZE - 1 → matchesTable T u = true →
          u ∈ run T S buffer := by
  have h := run_eq_filter_aux T hT S.length S le_rfl buffer
  refine ⟨h, ?_⟩
  intro pre u post hS hne hu hpre hpost hlen hm
  rw [h, List.mem_filter]
  refine ⟨?_, by simp [hlen, hm]⟩
  rw [hS]
  exact mem_maximalRuns pre.length pre u post le_rfl hne hu hpre hpost

/-- Instance of C2 (Scenario A): with the default table the stream
`see http://x.io and bad://y` gives exactly `http://x.io`. -/
theorem run_complete_witness :
    WellFormed default_table
      ∧ run default_table scenarioA buffer0
          = (maximalRuns scenarioA).filter
              (fun r => decide (r.length ≤ BUFSIZE - 1) && matchesTable default_table r)
      ∧ run default_table scenarioA buffer0 = [httpXio] :=
  ⟨by unfold WellFormed; decide,
    (run_complete scenarioA default_table (by unfold WellFormed; decide) buffer0).1,
    by decide⟩

/-- C3 (length boundary of the tokenizer).  Let `r` be a run of URL-class bytes
met by `read_next_candidate` after skipped bytes `junk`, and ended by the end
of the stream or by a byte that is not URL-class.  If `r` has exactly
`BUFSIZE - 1 = 511` bytes, the call returns the buffer, which then holds `r`
byte for byte, and the stream stands after the ending byte.  If `r` has
`BUFSIZE = 512` bytes or more, the call behaves as a call on the stream after
the ending byte (only the bytes left in the buffer differ), and so does the
pipeline: nothing of `r` is returned or written, whatever `r` starts with. -/
theorem length_boundary :
    (∀ (junk r rest : List Int) (buffer : Buffer),
      (∀ b ∈ junk, is_url_char b = false) → (∀ b ∈ r, is_url_char b = true) →
      Boundary rest → r.length = BUFSIZE - 1 →
        read_next_candidate (junk ++ (r ++ rest)) buffer
            = (true, rest.tail, store buffer 0 (r ++ [0]))
          ∧ c_string (store buffer 0 (r ++ [0])) 0 BUFSIZE = r)
    ∧ (∀ (junk r rest : List Int) (buffer : Buffer),
      (∀ b ∈ junk, is_url_char b = false) → (∀ b ∈ r, is_url_char b = true) →
      Boundary rest → BUFSIZE ≤ r.length →
        read_next_candidate (junk ++ (r ++ rest)) buffer
            = read_next_candidate rest.tail (store buffer 0 (r.take BUFSIZE))
          ∧ ∀ T, run T (junk ++ (r ++ rest)) buffer
            = run T rest.tail (store buffer 0 (r.take BUFSIZE))) := by
  constructor
  · intro junk r rest buffer hj hr hb hlen
    have hne : r ≠ [] := by
      intro h
      rw [h] at hlen
      simp [BUFSIZE] at hlen
    rw [read_next_candidate_skip junk _ hj,
      read_next_candidate_short r rest hne hr hb (by omega)]
    exact ⟨rfl, c_string_store buffer r (not_mem_zero_of_url r hr)
      (by simp only [BUFSIZE] at hlen ⊢; omega)⟩
  · intro junk r rest buffer hj hr hb hlen
    rw [read_next_candidate_skip junk _ hj, read_next_candidate_long r rest hr hb hlen]
    refine ⟨rfl, fun T => ?_⟩
    rw [run_skip T junk _ hj, run_long T r rest hr hb hlen]

/-- Instance of C3: 511 bytes 'a' followed by a space are returned as one
candidate, and the stream is then empty. -/
theorem length_boundary_witness :
    read_next_candidate ([] ++ (List.replicate 511 97 ++ [32])) buffer0
        = (true, [], store buffer0 0 (List.replicate 511 97 ++ [0]))
      ∧ c_string (store buffer0 0 (List.replicate 511 97 ++ [0])) 0 BUFSIZE
        = List.replicate 511 97 :=
  length_boundary.1 [] (List.replicate 511 97) [32] buffer0
    (by simp)
    (by intro b hb; rw [List.eq_of_mem_replicate hb]; decide)
    (by intro b hb; simp at hb; rw [← hb]; decide)
    (by rw [List.length_replicate]; rfl)

/-- C4 (validator characterisation).  For a well-formed table `T` (NUL-free
scheme strings whose `len` is their length) and a candidate `cand` held
NUL-terminated in the buffer, whatever lies behind the NUL, `is_valid_url` is
true exactly when some scheme `s` of `T` is such that the first `s.len` bytes
of `cand` are `s.str`, byte `s.len` of `cand` is ':' and `cand` has a byte at
index `s.len + 1` that is URL-class.  With the table `["x"]`, `x:1` is
accepted and `xx:2` and `x:` are rejected. -/
theorem is_valid_url_spec :
    (∀ (T : List Scheme) (cand : List Int) (url : Buffer),
      WellFormed T → HoldsString url cand →
        (is_valid_url T url = true ↔
          ∃ s ∈ T, cand.take s.len = s.str ∧ cand[s.len]? = some 58
            ∧ ∃ b, cand[s.len + 1]? = some b ∧ is_url_char b = true))
    ∧ is_valid_url [⟨[120], 1⟩] (chars [120, 58, 49]) = true
    ∧ is_valid_url [⟨[120], 1⟩] (chars [120, 120, 58, 50]) = false
    ∧ is_valid_url [⟨[120], 1⟩] (chars [120, 58]) = false := by
  refine ⟨?_, by decide, by decide, by decide⟩
  intro T cand url hT hc
  rw [is_valid_url_iff_exists]
  constructor
  · rintro ⟨s, hs, h⟩
    exact ⟨s, hs, (scheme_matches_iff s (hT s hs).1 (hT s hs).2 cand url hc).1 h⟩
  · rintro ⟨s, hs, h⟩
    exact ⟨s, hs, (scheme_matches_iff s (hT s hs).1 (hT s hs).2 cand url hc).2 h⟩

/-- Instance of C4: the table `["x"]` and the candidate `x:1`. -/
theorem is_valid_url_spec_witness :
    is_valid_url [⟨[120], 1⟩] (chars [120, 58, 49]) = true ↔
      ∃ s ∈ [(⟨[120], 1⟩ : Scheme)], [(120 : Int), 58, 49].take s.len = s.str
        ∧ [(120 : Int), 58, 49][s.len]? = some 58
        ∧ ∃ b, [(120 : Int), 58, 49][s.len + 1]? = some b ∧ is_url_char b = true :=
  is_valid_url_spec.1 [⟨[120], 1⟩] [120, 58, 49] (chars [120, 58, 49])
    (by unfold WellFormed; decide)
    ⟨by intro i hi; rfl, by rfl⟩

/-- C5 (character class).  For every `int` value `c`, `is_url_char c` is true
exactly when `0x21 <= c <= 0x7A` and `c` is none of `"`, `<`, `>`, `\`, `^`,
backquote, or when `c` is `~`.  It is false for `EOF`, for NUL, space and every
control byte, for `{`, `|`, `}`, and for DEL and every value from 0x7F on. -/
theorem is_url_char_spec :
    (∀ c : Int, is_url_char c = true ↔
      ((0x21 ≤ c ∧ c ≤ 0x7A ∧ c ≠ 0x22 ∧ c ≠ 0x3C ∧ c ≠ 0x3E ∧ c ≠ 0x5C ∧ c ≠ 0x5E
          ∧ c ≠ 0x60) ∨ c = 0x7E))
    ∧ is_url_char EOF = false
    ∧ (∀ c : Int, c ≤ 0x20 → is_url_char c = false)
    ∧ is_url_char 0x7B = false ∧ is_url_char 0x7C = false ∧ is_url_char 0x7D = false
    ∧ (∀ c : Int, 0x7F ≤ c → is_url_char c = false) := by
  refine ⟨is_url_char_iff, by decide, ?_, by decide, by decide, by decide, ?_⟩
  · intro c hc
    rw [← Bool.not_eq_true, is_url_char_iff]
    omega
  · intro c hc
    rw [← Bool.not_eq_true, is_url_char_iff]
    omega

/-- Instance of C5: the byte 0xFF is not URL-class. -/
theorem is_url_char_spec_witness : is_url_char 0xFF = false :=
  is_url_char_spec.2.2.2.2.2.2 0xFF (by decide)

/-- C6 (default table), evaluated on the code: with no `-s` option `main` uses
`NUM_DEFAULT_SCHEMES = 6` records of `default_schemes`, not 5, and the sixth
is the zero-initialised record of length 0; so `:x` is accepted and the stream
` :x ` makes the pipeline write `:x`. -/
theorem default_table_sixth_slot :
    main_schemes none = some default_table
      ∧ default_table.length = 6
      ∧ default_table[5]? = some ⟨[], 0⟩
      ∧ (default_table.map (fun s => s.len)) = [3, 4, 5, 6, 3, 0]
      ∧ is_valid_url default_table (chars [58, 120]) = true
      ∧ run default_table [32, 58, 120, 32] buffer0 = [[58, 120]] := by
  refine ⟨rfl, rfl, rfl, rfl, by decide, by decide⟩

/-- C7 (scheme-list parsing fails exactly on malformed lists).  For a NUL-free
configuration string whose comma-separated pieces are at most
`BUFSIZE - 2 = 510` bytes long, `parse_schemes` returns (does not call `fail`)
exactly when every piece is a letter followed by letters, digits, '+', '-' or
'.'.  The lists (empty), `ht!tp`, `,http`, `http,`, `http,,ftp` and
`http, https` make it fail. -/
theorem parse_schemes_succeeds_iff :
    (∀ s : List Int, (0 : Int) ∉ s →
      (∀ p ∈ s.splitOn 44, p.length ≤ BUFSIZE - 2) →
        ((parse_schemes s).isSome = true ↔ ∀ p ∈ s.splitOn 44, ValidSchemeText p))
    ∧ parse_schemes [] = none
    ∧ parse_schemes [104, 116, 33, 116, 112] = none
    ∧ parse_schemes [44, 104, 116, 116, 112] = none
    ∧ parse_schemes [104, 116, 116, 112, 44] = none
    ∧ parse_schemes [104, 116, 116, 112, 44, 44, 102, 116, 112] = none
    ∧ parse_schemes [104, 116, 116, 112, 44, 32, 104, 116, 116, 112, 115] = none := by
  refine ⟨?_, by decide, by decide, by decide, by decide, by decide, by decide⟩
  intro s hs hlen
  have hps : ∀ p ∈ s.splitOn 44, (0 : Int) ∉ p :=
    fun p hp h0 => hs (mem_of_mem_splitOn s p hp 0 h0)
  have hiff : ∀ p ∈ s.splitOn 44, (is_valid_scheme p = true ↔ ValidSchemeText p) := by
    intro p hp
    have h2 := is_valid_scheme_append p [] (hps p hp) rfl
    rw [List.append_nil] at h2
    rw [h2]
    have := hlen p hp
    exact ⟨fun h => h.1, fun h => ⟨h, by omega⟩⟩
  rw [parse_schemes_eq s hs]
  by_cases hall : (s.splitOn 44).all is_valid_scheme = true
  · simp only [hall, if_true, Option.isSome_some, true_iff]
    intro p hp
    exact (hiff p hp).1 (List.all_eq_true.1 hall p hp)
  · simp only [hall, if_false, Option.isSome_none, Bool.false_eq_true, false_iff]
    intro h
    exact hall (List.all_eq_true.2 (fun p hp => (hiff p hp).2 (h p hp)))

/-- Instance of C7: `http,https,ftp` is parsed, so each of its pieces has the
scheme syntax. -/
theorem parse_schemes_succeeds_iff_witness :
    ∀ p ∈ httpHttpsFtp.splitOn 44, ValidSchemeText p :=
  (parse_schemes_succeeds_iff.1 httpHttpsFtp (by decide) (by decide)).1 (by decide)

/-- C8 (result of successful parsing).  When `parse_schemes` returns a table
for a NUL-free configuration string, the table lists the comma-separated
pieces of the string verbatim and in order, each with its length as `len`, and
has (number of ',') + 1 entries. -/
theorem parse_schemes_result (s : List Int) (T : List Scheme) (hs : (0 : Int) ∉ s)
    (h : parse_schemes s = some T) :
    T = (s.splitOn 44).map (fun p => (⟨p, p.length⟩ : Scheme))
      ∧ T.length = s.count 44 + 1 := by
  rw [parse_schemes_eq s hs] at h
  by_cases hall : (s.splitOn 44).all is_valid_scheme = true
  · simp only [hall, if_true, Option.some.injEq] at h
    subst h
    exact ⟨rfl, by rw [List.length_map, length_splitOn]⟩
  · simp only [hall, if_false, Bool.false_eq_true, reduceCtorEq] at h

/-- Instance of C8: `http,https,ftp` yields `http`, `https`, `ftp` with the
lengths 4, 5, 3. -/
theorem parse_schemes_result_witness :
    parse_schemes httpHttpsFtp
        = some [⟨[104, 116, 116, 112], 4⟩, ⟨[104, 116, 116, 112, 115], 5⟩,
            ⟨[102, 116, 112], 3⟩]
      ∧ ([⟨[104, 116, 116, 112], 4⟩, ⟨[104, 116, 116, 112, 115], 5⟩,
            ⟨[102, 116, 112], 3⟩]
          = (httpHttpsFtp.splitOn 44).map (fun p => (⟨p, p.length⟩ : Scheme))
        ∧ [(⟨[104, 116, 116, 112], 4⟩ : Scheme), ⟨[104, 116, 116, 112, 115], 5⟩,
            ⟨[102, 116, 112], 3⟩].length = httpHttpsFtp.count 44 + 1) :=
  ⟨by decide, parse_schemes_result httpHttpsFtp _ (by decide) (by decide)⟩

/-- C9 (scheme length limit), evaluated on the code: `is_valid_scheme` accepts
the scheme made of `BUFSIZE - 1 = 511` letters 'a', one more than the
`BUFSIZE - 2 = 510` of Invariant I1, and `parse_schemes` puts it in the table
with `len = 511`; the scheme of 512 letters 'a' is rejected. -/
theorem is_valid_scheme_accepts_511 :
    is_valid_scheme (List.replicate 511 97) = true
      ∧ (List.replicate 511 (97 : Int)).length = BUFSIZE - 1
      ∧ parse_schemes (List.replicate 511 97) = some [⟨List.replicate 511 97, 511⟩]
      ∧ is_valid_scheme (List.replicate 512 97) = false := by
  have hv : is_valid_scheme (List.replicate 511 97) = true :=
    replicate_a_valid 510 (by simp [BUFSIZE])
  have hz : (0 : Int) ∉ List.replicate 511 97 :=
    fun h => absurd (List.eq_of_mem_replicate h) (by decide)
  have hz2 : (0 : Int) ∉ List.replicate 512 97 :=
    fun h => absurd (List.eq_of_mem_replicate h) (by decide)
  have hsplit : (List.replicate 511 (97 : Int)).splitOn 44 = [List.replicate 511 97] := by
    apply List.splitOnP_eq_single
    intro x hx
    rw [List.eq_of_mem_replicate hx]
    decide
  refine ⟨hv, by rw [List.length_replicate]; rfl, ?_, ?_⟩
  · rw [parse_schemes_eq _ hz, hsplit]
    simp only [List.all_cons, List.all_nil, hv, Bool.and_true, if_true, List.map_cons,
      List.map_nil, List.length_replicate]
  · rw [← Bool.not_eq_true]
    intro h
    have := is_valid_scheme_length _ hz2 h
    rw [List.length_replicate] at this
    simp only [BUFSIZE] at this
    omega

/-- C10 (Scenario C) as the code behaves: 600 bytes 'a' immediately followed by
`http://ok` are one run of 609 URL-class bytes, longer than `BUFSIZE - 1`, so
the pipeline with the default table writes nothing. -/
theorem scenarioC_output_empty (buffer : Buffer) :
    run default_table (scenarioC 600) buffer = [] :=
  run_scenarioC default_table 600 (by simp [BUFSIZE]) buffer

/-- C10 as stated fails: the output for 600 bytes 'a' followed by `http://ok`
is not the one string `http://ok`. -/
theorem scenarioC_output_ne_httpOk :
    run default_table (scenarioC 600) buffer0 ≠ [httpOk] := by
  rw [run_scenarioC default_table 600 (by simp [BUFSIZE]) buffer0]
  decide

/-! ## Further lemmas: initial buffer, table order, separators -/

theorem default_table_wellFormed : WellFormed default_table := by
  unfold WellFormed
  decide

theorem c_string_eq_of_holdsString (url : Buffer) (r : List Int) (h : HoldsString url r)
    (hr : (0 : Int) ∉ r) (hlen : r.length < BUFSIZE) : c_string url 0 BUFSIZE = r := by
  apply c_string_of_holds r hr url 0 BUFSIZE hlen
  · intro j hj
    rw [Nat.zero_add]
    exact h.1 j hj
  · rw [Nat.zero_add]
    exact h.2

theorem read_next_candidate_two_buffers (n : Nat) : ∀ (S : List Int), S.length ≤ n →
    ∀ (b1 b2 : Buffer),
      (read_next_candidate S b1).1 = (read_next_candidate S b2).1
      ∧ (read_next_candidate S b1).2.1 = (read_next_candidate S b2).2.1
      ∧ ((read_next_candidate S b1).1 = true →
          ∃ r, HoldsString (read_next_candidate S b1).2.2 r
            ∧ HoldsString (read_next_candidate S b2).2.2 r
            ∧ r ≠ [] ∧ (∀ x ∈ r, is_url_char x = true) ∧ r.length ≤ BUFSIZE - 1) := by
  induction n with
  | zero =>
    intro S hS b1 b2
    have : S = [] := List.eq_nil_of_length_eq_zero (by omega)
    subst this
    rw [read_next_candidate_none [] (by simp) b1, read_next_candidate_none [] (by simp) b2]
    simp
  | succ n ih =>
    intro S hS b1 b2
    cases S with
    | nil =>
      rw [read_next_candidate_none [] (by simp) b1,
        read_next_candidate_none [] (by simp) b2]
      simp
    | cons c q =>
      by_cases hc : is_url_char c = true
      · obtain ⟨r, rest, h1, h2, h3, h4⟩ := exists_run_split (c :: q)
        have hne := h4 c q rfl hc
        have hl2 := tail_length_le_of_split c q r rest n h1 hne hS
        rw [h1]
        by_cases hl : r.length ≤ BUFSIZE - 1
        · rw [read_next_candidate_short r rest hne h2 h3 hl b1,
            read_next_candidate_short r rest hne h2 h3 hl b2]
          exact ⟨rfl, rfl, fun _ =>
            ⟨r, holdsString_store b1 r, holdsString_store b2 r, hne, h2, hl⟩⟩
        · rw [read_next_candidate_long r rest h2 h3 (by omega) b1,
            read_next_candidate_long r rest h2 h3 (by omega) b2]
          exact ih rest.tail hl2 _ _
      · have hc2 : is_url_char c = false := by simpa using hc
        have hsk : ∀ b, read_next_candidate (c :: q) b = read_next_candidate q b := by
          intro b
          have := read_next_candidate_skip [c] q (by simpa using hc2) b
          rwa [List.singleton_append] at this
        rw [hsk b1, hsk b2]
        exact ih q (by simpa using hS) b1 b2

theorem boundary_cons (d : Int) (l : List Int) (hd : is_url_char d = false) :
    Boundary (d :: l) := by
  intro b hb
  simp only [List.head?_cons, Option.some.injEq] at hb
  rw [← hb]
  exact hd

theorem boundary_nil : Boundary [] := by
  intro b hb
  simp at hb

theorem maximalRuns_append_sep (n : Nat) : ∀ (A : List Int), A.length ≤ n →
    ∀ (d : Int) (B : List Int), is_url_char d = false →
      maximalRuns (A ++ d :: B) = maximalRuns A ++ maximalRuns B := by
  induction n with
  | zero =>
    intro A hA d B hd
    have : A = [] := List.eq_nil_of_length_eq_zero (by omega)
    subst this
    rw [List.nil_append, maximalRuns_cons_nonurl d B hd, maximalRuns_nil, List.nil_append]
  | succ n ih =>
    intro A hA d B hd
    cases A with
    | nil =>
      rw [List.nil_append, maximalRuns_cons_nonurl d B hd, maximalRuns_nil, List.nil_append]
    | cons c q =>
      by_cases hc : is_url_char c = true
      · obtain ⟨r, rest, h1, h2, h3, h4⟩ := exists_run_split (c :: q)
        have hne := h4 c q rfl hc
        have hl2 := tail_length_le_of_split c q r rest n h1 hne hA
        rw [h1]
        cases rest with
        | nil =>
          rw [List.append_nil, maximalRuns_append r (d :: B) hne h2 (boundary_cons d B hd),
            List.tail_cons]
          have h5 := maximalRuns_append r [] hne h2 boundary_nil
          rw [List.append_nil, List.tail_nil, maximalRuns_nil] at h5
          rw [h5]
          rfl
        | cons e rest2 =>
          have he : is_url_char e = false := h3 e rfl
          have e1 : r ++ e :: rest2 ++ d :: B = r ++ (e :: (rest2 ++ d :: B)) := by simp
          rw [e1, maximalRuns_append r _ hne h2 (boundary_cons e _ he), List.tail_cons,
            ih rest2 (by simpa using hl2) d B hd,
            maximalRuns_append r (e :: rest2) hne h2 h3, List.tail_cons]
          rfl
      · have hc2 : is_url_char c = false := by simpa using hc
        rw [List.cons_append, maximalRuns_cons_nonurl c _ hc2, maximalRuns_cons_nonurl c q hc2]
        exact ih q (by simpa using hA) d B hd

theorem is_valid_url_congr_mem (T1 T2 : List Scheme) (h : ∀ s, s ∈ T1 ↔ s ∈ T2)
    (url : Buffer) : is_valid_url T1 url = is_valid_url T2 url := by
  rw [Bool.eq_iff_iff, is_valid_url_iff_exists, is_valid_url_iff_exists]
  constructor
  · rintro ⟨s, hs, h2⟩
    exact ⟨s, (h s).1 hs, h2⟩
  · rintro ⟨s, hs, h2⟩
    exact ⟨s, (h s).2 hs, h2⟩

theorem find_next_url_loop_congr (T1 T2 : List Scheme)
    (h : ∀ url, is_valid_url T1 url = is_valid_url T2 url) (fuel : Nat) :
    ∀ (f : List Int) (buffer : Buffer),
      find_next_url_loop T1 fuel f buffer = find_next_url_loop T2 fuel f buffer := by
  induction fuel with
  | zero =>
    intro f buffer
    rfl
  | succ fuel ih =>
    intro f buffer
    rw [find_next_url_loop, find_next_url_loop, h, ih]

theorem run_loop_congr (T1 T2 : List Scheme)
    (h : ∀ url, is_valid_url T1 url = is_valid_url T2 url) (fuel : Nat) :
    ∀ (f : List Int) (buffer : Buffer),
      run_loop T1 fuel f buffer = run_loop T2 fuel f buffer := by
  have hf : ∀ f buffer, find_next_url T1 f buffer = find_next_url T2 f buffer :=
    fun f buffer => find_next_url_loop_congr T1 T2 h _ f buffer
  induction fuel with
  | zero =>
    intro f buffer
    rfl
  | succ fuel ih =>
    intro f buffer
    rw [run_loop, run_loop, hf, ih]

/-! ## Indices written by `read_next_candidate` -/

theorem fill_loop_trace_fst (n : Nat) : ∀ (p : Nat) (f : List Int) (buffer : Buffer),
    (fill_loop_trace n p f buffer).1 = fill_loop n p f buffer := by
  induction n with
  | zero =>
    intro p f buffer
    rfl
  | succ n ih =>
    intro p f buffer
    simp only [fill_loop_trace, fill_loop]
    split
    · rfl
    · exact ih _ _ _

theorem fill_loop_trace_bound (n : Nat) : ∀ (p : Nat) (f : List Int) (buffer : Buffer),
    (fill_loop_trace n p f buffer).2.length ≤ n
    ∧ ∀ i ∈ (fill_loop_trace n p f buffer).2, p ≤ i ∧ i < p + n := by
  induction n with
  | zero =>
    intro p f buffer
    simp [fill_loop_trace]
  | succ n ih =>
    intro p f buffer
    simp only [fill_loop_trace]
    split
    · simp
    · have h := ih (p + 1) (fgetc f).2 (write buffer p (fgetc f).1)
      refine ⟨by simp only [List.length_cons]; omega, ?_⟩
      intro i hi
      rcases List.mem_cons.1 hi with h1 | h1
      · omega
      · have := h.2 i h1
        omega

theorem read_next_candidate_trace_loop_fst (fuel : Nat) :
    ∀ (f : List Int) (buffer : Buffer),
      (read_next_candidate_trace_loop fuel f buffer).1
        = read_next_candidate_loop fuel f buffer := by
  induction fuel with
  | zero =>
    intro f buffer
    rfl
  | succ fuel ih =>
    intro f buffer
    rw [read_next_candidate_trace_loop, read_next_candidate_loop]
    cases hs : skip_loop f with
    | none => rfl
    | some cf =>
      obtain ⟨c, f1⟩ := cf
      simp only [fill_loop_trace_fst]
      cases hf : fill_loop (BUFSIZE - 1) 1 f1 (write buffer 0 c) with
      | returned f2 b2 => rfl
      | full f2 b2 => exact ih _ _

theorem read_next_candidate_trace_loop_bound (fuel : Nat) :
    ∀ (f : List Int) (buffer : Buffer),
      ∀ turn ∈ (read_next_candidate_trace_loop fuel f buffer).2,
        turn.length ≤ BUFSIZE ∧ ∀ i ∈ turn, i < BUFSIZE := by
  induction fuel with
  | zero =>
    intro f buffer turn ht
    simp [read_next_candidate_trace_loop] at ht
  | succ fuel ih =>
    intro f buffer turn ht
    rw [read_next_candidate_trace_loop] at ht
    cases hs : skip_loop f with
    | none =>
      rw [hs] at ht
      simp at ht
    | some cf =>
      obtain ⟨c, f1⟩ := cf
      rw [hs] at ht
      have hb := fill_loop_trace_bound (BUFSIZE - 1) 1 f1 (write buffer 0 c)
      have hgood : (0 :: (fill_loop_trace (BUFSIZE - 1) 1 f1 (write buffer 0 c)).2).length
            ≤ BUFSIZE
          ∧ ∀ i ∈ 0 :: (fill_loop_trace (BUFSIZE - 1) 1 f1 (write buffer 0 c)).2,
              i < BUFSIZE := by
        refine ⟨by simp only [List.length_cons, BUFSIZE] at hb ⊢; omega, ?_⟩
        intro i hi
        rcases List.mem_cons.1 hi with h1 | h1
        · rw [h1]
          decide
        · have := hb.2 i h1
          simp only [BUFSIZE] at this ⊢
          omega
      simp only [] at ht
      cases hf : (fill_loop_trace (BUFSIZE - 1) 1 f1 (write buffer 0 c)).1 with
      | returned f2 b2 =>
        rw [hf] at ht
        simp only [List.mem_singleton] at ht
        rw [ht]
        exact hgood
      | full f2 b2 =>
        rw [hf] at ht
        simp only [List.mem_cons] at ht
        rcases ht with h1 | h1
        · rw [h1]
          exact hgood
        · exact ih _ _ turn h1

/-! ## Indices read by `is_valid_url` -/

theorem strncmp_reads_le (s1 url : Buffer) (cand : List Int) (hc : HoldsString url cand) :
    ∀ (n i : Nat), i ≤ cand.length →
      ∀ j ∈ strncmp_reads s1 url i n, j ≤ cand.length := by
  intro n
  induction n with
  | zero =>
    intro i _ j hj
    simp [strncmp_reads] at hj
  | succ n ih =>
    intro i hi j hj
    simp only [strncmp_reads] at hj
    split at hj
    · simp only [List.mem_singleton] at hj
      omega
    · rename_i h1
      split at hj
      · simp only [List.mem_singleton] at hj
        omega
      · rename_i h2
        have h1b : s1 i = url i := by simpa using h1
        have h3 : i ≠ cand.length := by
          intro h
          apply h2
          rw [h1b, h, hc.2]
        rcases List.mem_cons.1 hj with h4 | h4
        · omega
        · exact ih (i + 1) (by omega) j h4

theorem strncmp_eq_len_le (s : Scheme) (hs0 : (0 : Int) ∉ s.str)
    (hlen : s.len = s.str.length) (cand : List Int) (url : Buffer)
    (hc : HoldsString url cand) (h : strncmp_eq (chars s.str) url 0 s.len = true) :
    s.len ≤ cand.length := by
  have h1 := (strncmp_eq_iff s.str hs0 url s.len 0 (by omega)).1 h
  have h2 := (take_eq_iff_of_holds s.str cand hs0 url hc).1
    (fun j hj => h1 j (Nat.zero_le _) hj)
  have := congrArg List.length h2
  simp at this
  omega

theorem is_valid_url_trace_fst (T : List Scheme) (url : Buffer) :
    (is_valid_url_trace T url).1 = is_valid_url T url := by
  induction T with
  | nil => rfl
  | cons s rest ih =>
    simp only [is_valid_url_trace, is_valid_url]
    split
    · rfl
    · exact ih

theorem is_valid_url_reads_le (T : List Scheme) (hT : WellFormed T) (cand : List Int)
    (url : Buffer) (hc : HoldsString url cand) :
    ∀ j ∈ is_valid_url_reads T url, j ≤ cand.length := by
  induction T with
  | nil =>
    intro j hj
    simp [is_valid_url_reads, is_valid_url_trace] at hj
  | cons s rest ih =>
    intro j hj
    have hs := hT s (List.mem_cons_self _ _)
    have hrest : WellFormed rest := fun x hx => hT x (List.mem_cons_of_mem _ hx)
    have hreads : ∀ j ∈ strncmp_reads (chars s.str) url 0 s.len
        ++ (if strncmp_eq (chars s.str) url 0 s.len = true then [s.len] else [])
        ++ (if (strncmp_eq (chars s.str) url 0 s.len && (url s.len == 58)) = true
            then [s.len + 1] else []), j ≤ cand.length := by
      intro j hj
      simp only [List.mem_append] at hj
      rcases hj with (h1 | h1) | h1
      · exact strncmp_reads_le _ url cand hc s.len 0 (Nat.zero_le _) j h1
      · by_cases hsame : strncmp_eq (chars s.str) url 0 s.len = true
        · simp only [hsame, if_true, List.mem_singleton] at h1
          have := strncmp_eq_len_le s hs.1 hs.2 cand url hc hsame
          omega
        · simp [hsame] at h1
      · by_cases hcolon :
            (strncmp_eq (chars s.str) url 0 s.len && (url s.len == 58)) = true
        · simp only [hcolon, if_true, List.mem_singleton] at h1
          simp only [Bool.and_eq_true, beq_iff_eq] at hcolon
          have h2 := strncmp_eq_len_le s hs.1 hs.2 cand url hc hcolon.1
          have h3 : s.len ≠ cand.length := by
            intro h
            have h4 := hcolon.2
            rw [h, hc.2] at h4
            exact absurd h4 (by decide)
          omega
        · simp [hcolon] at h1
    simp only [is_valid_url_reads, is_valid_url_trace] at hj
    split at hj
    · exact hreads j hj
    · rcases List.mem_append.1 hj with h1 | h1
      · exact hreads j h1
      · exact ih hrest j h1

/-! ## Claims, continued -/

/-- C11 (Scenario B).  For the input `contact: mailto:a@b.com!` and the default
table the pipeline writes exactly the one string `mailto:a@b.com!`, whatever
the buffer holds at the start: the trailing '!' is URL-class and belongs to the
URL, and `contact:` is not written. -/
theorem scenarioB_output (buffer : Buffer) :
    run default_table scenarioB buffer = [mailtoAB]
      ∧ is_url_char 33 = true
      ∧ mailtoAB.getLast? = some 33 := by
  refine ⟨?_, by decide, by decide⟩
  rw [run_eq_filter_aux default_table default_table_wellFormed scenarioB.length scenarioB
    le_rfl buffer]
  decide

/-- C12 (the output is a function of the input bytes and the table).  For every
stream `S`, every well-formed table `T` and any two initial contents `b1`, `b2`
of the working buffer, `run` writes the same strings; `read_next_candidate`
gives the same answer (NULL or not), leaves the same bytes unread and, when it
returns the buffer, leaves the same string in it; and `is_valid_url` gives the
same result on any two buffers that hold the same candidate, whatever bytes
lie behind its NUL. -/
theorem output_independent_of_buffer (S : List Int) (T : List Scheme)
    (hT : WellFormed T) (b1 b2 : Buffer) :
    run T S b1 = run T S b2
      ∧ (read_next_candidate S b1).1 = (read_next_candidate S b2).1
      ∧ (read_next_candidate S b1).2.1 = (read_next_candidate S b2).2.1
      ∧ ((read_next_candidate S b1).1 = true →
          c_string (read_next_candidate S b1).2.2 0 BUFSIZE
            = c_string (read_next_candidate S b2).2.2 0 BUFSIZE)
      ∧ (∀ (cand : List Int) (url1 url2 : Buffer),
          HoldsString url1 cand → HoldsString url2 cand →
          is_valid_url T url1 = is_valid_url T url2) := by
  obtain ⟨h1, h2, h3⟩ := read_next_candidate_two_buffers S.length S le_rfl b1 b2
  refine ⟨?_, h1, h2, ?_, ?_⟩
  · rw [run_eq_filter_aux T hT S.length S le_rfl b1,
      run_eq_filter_aux T hT S.length S le_rfl b2]
  · intro h
    obtain ⟨r, e1, e2, _, e4, e5⟩ := h3 h
    have hr0 := not_mem_zero_of_url r e4
    have hlen : r.length < BUFSIZE := by
      simp only [BUFSIZE] at e5 ⊢
      omega
    rw [c_string_eq_of_holdsString _ r e1 hr0 hlen,
      c_string_eq_of_holdsString _ r e2 hr0 hlen]
  · intro cand url1 url2 e1 e2
    rw [is_valid_url_eq_matchesTable T hT cand url1 e1,
      is_valid_url_eq_matchesTable T hT cand url2 e2]

/-- Instance of C12: Scenario A from a zeroed buffer and from a buffer full of
'x' gives the same output. -/
theorem output_independent_of_buffer_witness :
    WellFormed default_table
      ∧ run default_table scenarioA buffer0 = run default_table scenarioA (fun _ => 120) :=
  ⟨by unfold WellFormed; decide,
    (output_independent_of_buffer scenarioA default_table
      (by unfold WellFormed; decide) buffer0 (fun _ => 120)).1⟩

/-- C13 (table order is irrelevant).  If two tables have the same members (one
is a permutation of the other, possibly with duplicates added or removed),
`is_valid_url` gives the same result on every buffer and `run` writes the same
strings for every stream and initial buffer. -/
theorem table_order_irrelevant :
    (∀ T1 T2 : List Scheme, (∀ s, s ∈ T1 ↔ s ∈ T2) →
      (∀ url, is_valid_url T1 url = is_valid_url T2 url)
        ∧ ∀ S buffer, run T1 S buffer = run T2 S buffer)
    ∧ (∀ T1 T2 : List Scheme, T1.Perm T2 →
      (∀ url, is_valid_url T1 url = is_valid_url T2 url)
        ∧ ∀ S buffer, run T1 S buffer = run T2 S buffer) := by
  have key : ∀ T1 T2 : List Scheme, (∀ s, s ∈ T1 ↔ s ∈ T2) →
      (∀ url, is_valid_url T1 url = is_valid_url T2 url)
        ∧ ∀ S buffer, run T1 S buffer = run T2 S buffer := by
    intro T1 T2 h
    have hv := is_valid_url_congr_mem T1 T2 h
    exact ⟨hv, fun S buffer => run_loop_congr T1 T2 hv _ S buffer⟩
  exact ⟨key, fun T1 T2 hp => key T1 T2 (fun s => hp.mem_iff)⟩

/-- Instance of C13: the table `[x]` and the table `[x, x]`. -/
theorem table_order_irrelevant_witness :
    (∀ url, is_valid_url [⟨[120], 1⟩] url = is_valid_url [⟨[120], 1⟩, ⟨[120], 1⟩] url)
      ∧ ∀ S buffer, run [⟨[120], 1⟩] S buffer = run [⟨[120], 1⟩, ⟨[120], 1⟩] S buffer :=
  table_order_irrelevant.1 [⟨[120], 1⟩] [⟨[120], 1⟩, ⟨[120], 1⟩] (by intro s; simp)

/-- C14 (bounded buffering).  For every stream and initial buffer, the traced
`read_next_candidate` computes what `read_next_candidate` does; in every turn
of its outer loop (for every run of URL bytes it meets) it assigns at most
`BUFSIZE = 512` buffer cells, all at indices below `BUFSIZE`; and when it
returns the buffer, the buffer holds a NUL at an index `k <= BUFSIZE - 1`
with no NUL before it, `k` being the length of the candidate. -/
theorem bounded_buffering (S : List Int) (buffer : Buffer) :
    (read_next_candidate_trace S buffer).1 = read_next_candidate S buffer
      ∧ (∀ turn ∈ (read_next_candidate_trace S buffer).2,
          turn.length ≤ BUFSIZE ∧ ∀ i ∈ turn, i < BUFSIZE)
      ∧ ((read_next_candidate S buffer).1 = true →
          ∃ k, k ≤ BUFSIZE - 1
            ∧ (read_next_candidate S buffer).2.2 k = 0
            ∧ (∀ j, j < k → (read_next_candidate S buffer).2.2 j ≠ 0)
            ∧ (c_string (read_next_candidate S buffer).2.2 0 BUFSIZE).length = k) := by
  refine ⟨read_next_candidate_trace_loop_fst _ S buffer,
    read_next_candidate_trace_loop_bound _ S buffer, ?_⟩
  intro h
  obtain ⟨r, e1, _, _, e4, e5⟩ :=
    (read_next_candidate_two_buffers S.length S le_rfl buffer buffer).2.2 h
  have hr0 := not_mem_zero_of_url r e4
  have hlen : r.length < BUFSIZE := by
    simp only [BUFSIZE] at e5 ⊢
    omega
  refine ⟨r.length, e5, e1.2, ?_, by rw [c_string_eq_of_holdsString _ r e1 hr0 hlen]⟩
  intro j hj h0
  apply hr0
  rw [e1.1 j hj, List.getD_eq_getElem _ _ hj] at h0
  rw [← h0]
  exact List.getElem_mem _

/-- Instance of C14: on Scenario A the first call returns the buffer, which
holds a NUL at some index below `BUFSIZE`. -/
theorem bounded_buffering_witness :
    (read_next_candidate scenarioA buffer0).1 = true
      ∧ ∃ k, k ≤ BUFSIZE - 1
        ∧ (read_next_candidate scenarioA buffer0).2.2 k = 0
        ∧ (∀ j, j < k → (read_next_candidate scenarioA buffer0).2.2 j ≠ 0)
        ∧ (c_string (read_next_candidate scenarioA buffer0).2.2 0 BUFSIZE).length = k :=
  ⟨by decide, (bounded_buffering scenarioA buffer0).2.2 (by decide)⟩

/-- C15 (no out-of-bounds read in the validator).  For every well-formed table
(NUL-free scheme strings whose `len` is their length, as are the schemes that
`is_valid_scheme` accepts and `parse_schemes` records) and every candidate
returned by `read_next_candidate`, every buffer index that `is_valid_url`
reads (the chars compared by `strncmp`, `url[s->len]` and `url[s->len + 1]`)
is below `BUFSIZE`: no read goes beyond the NUL of the candidate.  The traced
validator computes what `is_valid_url` does. -/
theorem is_valid_url_reads_in_bounds (T : List Scheme) (hT : WellFormed T)
    (S : List Int) (buffer : Buffer) (h : (read_next_candidate S buffer).1 = true) :
    (is_valid_url_trace T (read_next_candidate S buffer).2.2).1
        = is_valid_url T (read_next_candidate S buffer).2.2
      ∧ ∀ i ∈ is_valid_url_reads T (read_next_candidate S buffer).2.2, i < BUFSIZE := by
  obtain ⟨r, e1, _, _, _, e5⟩ :=
    (read_next_candidate_two_buffers S.length S le_rfl buffer buffer).2.2 h
  refine ⟨is_valid_url_trace_fst T _, ?_⟩
  intro i hi
  have := is_valid_url_reads_le T hT r _ e1 i hi
  simp only [BUFSIZE] at e5 ⊢
  omega

/-- Instance of C15: the default table and the first candidate of Scenario A. -/
theorem is_valid_url_reads_in_bounds_witness :
    WellFormed default_table ∧ (read_next_candidate scenarioA buffer0).1 = true
      ∧ ∀ i ∈ is_valid_url_reads default_table (read_next_candidate scenarioA buffer0).2.2,
          i < BUFSIZE :=
  ⟨by unfold WellFormed; decide, by decide,
    (is_valid_url_reads_in_bounds default_table (by unfold WellFormed; decide) scenarioA
      buffer0 (by decide)).2⟩

/-- C16 (a read error aborts tokenization), evaluated on the code.  A failing
read makes `fgetc` return `EOF`, the value `read_next_candidate` also gets at
the end of the file.  On the stream that delivers the bytes `http://ok` and
whose next read fails, `read_next_candidate` does not return NULL: it returns
the buffer, which holds `http://ok`; `find_next_url` with the default table
returns it too, and it is the first string `run` writes. -/
theorem read_error_returns_truncated_run :
    (∀ (f : List Int) (read_fails : Bool), (fgetc_end f read_fails).1 = (fgetc f).1)
      ∧ fgetc_end [] true = (EOF, true)
      ∧ (read_next_candidate httpOk buffer0).1 = true
      ∧ c_string (read_next_candidate httpOk buffer0).2.2 0 BUFSIZE = httpOk
      ∧ (find_next_url default_table httpOk buffer0).1 = true
      ∧ c_string (find_next_url default_table httpOk buffer0).2.2 0 BUFSIZE = httpOk
      ∧ (run default_table httpOk buffer0).head? = some httpOk := by
  refine ⟨?_, rfl, by decide, by decide, by decide, by decide, by decide⟩
  intro f read_fails
  cases f <;> rfl

/-- C17 (effect of the sixth default slot).  The table `main` uses by default
has `NUM_DEFAULT_SCHEMES = 6` entries, the sixth with `len = 0`; with it
`is_valid_url` accepts every candidate whose first byte is ':' and that has a
second, URL-class, byte, for instance `:x`; and the default pipeline over the
stream ` :x ` writes `:x`. -/
theorem empty_default_scheme_accepts_colon :
    (∀ (cand : List Int) (url : Buffer), HoldsString url cand →
        cand[0]? = some 58 → (∃ b, cand[1]? = some b ∧ is_url_char b = true) →
        is_valid_url default_table url = true)
    ∧ default_table.length = NUM_DEFAULT_SCHEMES
    ∧ NUM_DEFAULT_SCHEMES = 6
    ∧ default_table[5]? = some ⟨[], 0⟩
    ∧ is_valid_url default_table (chars [58, 120]) = true
    ∧ (∀ buffer, run default_table [32, 58, 120, 32] buffer = [[58, 120]]) := by
  refine ⟨?_, rfl, rfl, rfl, by decide, ?_⟩
  · intro cand url hc h0 h1
    obtain ⟨b, hb1, hb2⟩ := h1
    have hlen : 1 ≤ cand.length := by
      by_contra hlt
      rw [List.getElem?_eq_none (by omega)] at h0
      exact absurd h0 (by simp)
    rw [is_valid_url_iff_exists]
    refine ⟨⟨[], 0⟩, by decide, rfl, ?_, ?_⟩
    · exact (holds_eq_colon cand url hc 0 (Nat.zero_le _) 58 (by decide)).2 h0
    · have := (holds_eq_colon cand url hc 1 hlen b (is_url_char_ne_zero hb2)).2 hb1
      show is_url_char (url 1) = true
      rw [this]
      exact hb2
  · intro buffer
    rw [run_eq_filter_aux default_table default_table_wellFormed _ _ le_rfl buffer]
    decide

/-- Instance of C17: the candidate `:x`. -/
theorem empty_default_scheme_accepts_colon_witness :
    is_valid_url default_table (chars [58, 120]) = true :=
  empty_default_scheme_accepts_colon.1 [58, 120] (chars [58, 120])
    ⟨by intro i hi; rfl, by rfl⟩ (by rfl) ⟨120, by rfl, by decide⟩

/-- C18 (separator homomorphism).  For all byte strings `A` and `B`, every byte
`d` that is not URL-class and every well-formed table, the output of `run` over
`A ++ [d] ++ B` is its output over `A` followed by its output over `B`,
whatever the three initial buffers hold. -/
theorem separator_homomorphism (A B : List Int) (d : Int) (T : List Scheme)
    (hd : is_url_char d = false) (hT : WellFormed T) (buffer bufferA bufferB : Buffer) :
    run T (A ++ [d] ++ B) buffer = run T A bufferA ++ run T B bufferB := by
  have e : A ++ [d] ++ B = A ++ d :: B := by simp
  rw [e, run_eq_filter_aux T hT _ _ le_rfl buffer, run_eq_filter_aux T hT _ _ le_rfl bufferA,
    run_eq_filter_aux T hT _ _ le_rfl bufferB, maximalRuns_append_sep A.length A le_rfl d B hd,
    List.filter_append]

/-- Instance of C18: Scenario A, a space, Scenario B, with the default table. -/
theorem separator_homomorphism_witness :
    is_url_char 32 = false ∧ WellFormed default_table
      ∧ run default_table (scenarioA ++ [32] ++ scenarioB) buffer0
          = run default_table scenarioA buffer0 ++ run default_table scenarioB buffer0 :=
  ⟨by decide, by unfold WellFormed; decide,
    separator_homomorphism scenarioA scenarioB 32 default_table (by decide)
      (by unfold WellFormed; decide) buffer0 buffer0 buffer0⟩

end Urls
